import Mathlib

/-!
Verification of the response-normalization and request-construction logic of
`src/vertexAi.js` (pdf-extractor-pro-worker), against its natural-language
specification.

The development embeds, as executable Lean definitions:
  * a JSON value model and a parser mirroring the behaviour of JavaScript's
    `JSON.parse` (exact mantissa/scale numbers instead of IEEE doubles, which
    is the standard idealization for a shallow embedding);
  * the two regular expressions of `parseResponse` and its candidate
    selection, repair, and pipe-separated-value fallback;
  * the generation-config temperature logic of `extractFromPdf` and the
    content assembly of `chatWithGemini`.
-/

namespace PdfExtractor

/-- JSON values as produced by `JSON.parse` in `parseResponse`
(src/vertexAi.js:227).  A number is kept exactly as mantissa `m` and decimal
scale `p`, denoting `m * 10 ^ p`; JavaScript collapses these to IEEE doubles,
which a shallow embedding replaces by exact arithmetic.  An object keeps its
member list in source order (duplicate keys possible; lookup takes the last,
as `JSON.parse` does). -/
inductive Json where
  | null : Json
  | bool (b : Bool) : Json
  | num (m : Int) (p : Int) : Json
  | str (s : String) : Json
  | arr (items : List Json) : Json
  | obj (members : List (String × Json)) : Json

/-- The rational value denoted by a JSON number `m * 10 ^ p`. -/
def numValue (m p : Int) : ℚ := (m : ℚ) * (10 : ℚ) ^ p

/-- The four whitespace characters accepted between JSON tokens by
`JSON.parse` (ECMA-404). -/
def isJsonWs (c : Char) : Bool :=
  c = ' ' || c = '\t' || c = '\n' || c = '\r'

/-- Whitespace as matched by the `\s` class of the JavaScript regexes in
`parseResponse` and trimmed by `String.prototype.trim` (restricted to the
ASCII members; the Unicode members never occur in the inputs modelled here). -/
def isJsWs (c : Char) : Bool :=
  c = ' ' || c = '\t' || c = '\n' || c = '\r' || c = '\x0b' || c = '\x0c'

/-- Drop leading JSON whitespace. -/
def dropJsonWs : List Char → List Char
  | [] => []
  | c :: r => if isJsonWs c then dropJsonWs r else c :: r

/-- Split off the maximal leading run of `\s` whitespace. -/
def shaveWs : List Char → List Char × List Char
  | [] => ([], [])
  | c :: r => if isJsWs c then ((shaveWs r).1.cons c, (shaveWs r).2) else ([], c :: r)

/-- Remove leading `\s` whitespace. -/
def dropWsL (cs : List Char) : List Char := (shaveWs cs).2

/-- JavaScript `String.prototype.trim` on a character list. -/
def jsTrim (cs : List Char) : List Char := ((dropWsL (dropWsL cs).reverse)).reverse

/-- Decimal digit test, as in the JSON number grammar. -/
def isDigitCh (c : Char) : Bool := '0' ≤ c && c ≤ '9'

/-- Split off the maximal leading run of decimal digits. -/
def grabDigits : List Char → List Char × List Char
  | [] => ([], [])
  | c :: r => if isDigitCh c then ((grabDigits r).1.cons c, (grabDigits r).2) else ([], c :: r)

/-- Numeric value of one digit character. -/
def decVal (c : Char) : Nat := c.toNat - '0'.toNat

/-- Numeric value of a most-significant-first digit run. -/
def digitsNat (ds : List Char) : Nat := ds.foldl (fun a c => 10 * a + decVal c) 0

/-- The character for one decimal digit. -/
def decChar : Nat → Char
  | 0 => '0' | 1 => '1' | 2 => '2' | 3 => '3' | 4 => '4'
  | 5 => '5' | 6 => '6' | 7 => '7' | 8 => '8' | _ => '9'

/-- The character for one hexadecimal digit (lower case). -/
def decCharHex : Nat → Char
  | 10 => 'a' | 11 => 'b' | 12 => 'c' | 13 => 'd' | 14 => 'e' | 15 => 'f'
  | n => decChar n

/-- Decimal digit characters of `n`, least significant first.  Structural on
fuel so that concrete values reduce in the kernel; `natChars` supplies
enough. -/
def natRevGo : Nat → Nat → List Char
  | 0, _ => []
  | f + 1, n => if n < 10 then [decChar n] else decChar (n % 10) :: natRevGo f (n / 10)

/-- Decimal digit characters of `n`, most significant first. -/
def natChars (n : Nat) : List Char := (natRevGo (n + 1) n).reverse

/-- Decimal rendering of an integer: optional sign, then digits. -/
def intChars (i : Int) : List Char :=
  (if i < 0 then ['-'] else []) ++ natChars i.natAbs

/-- Hexadecimal digit test for `\u` escapes. -/
def isHexDigit (c : Char) : Bool :=
  ('0' ≤ c && c ≤ '9') || ('a' ≤ c && c ≤ 'f') || ('A' ≤ c && c ≤ 'F')

/-- Value of one hexadecimal digit (0 on non-digits, guarded by `isHexDigit`
at every use site). -/
def hexNibble (c : Char) : Nat :=
  if '0' ≤ c && c ≤ '9' then c.toNat - '0'.toNat
  else if 'a' ≤ c && c ≤ 'f' then c.toNat - 'a'.toNat + 10
  else if 'A' ≤ c && c ≤ 'F' then c.toNat - 'A'.toNat + 10
  else 0

/-- The single-character JSON string escapes. -/
def unescapeCh : Char → Option Char
  | '"' => some '"'
  | '\\' => some '\\'
  | '/' => some '/'
  | 'b' => some '\x08'
  | 'f' => some '\x0c'
  | 'n' => some '\n'
  | 'r' => some '\r'
  | 't' => some '\t'
  | _ => none

/-- Body of a JSON string after the opening quote: plain characters up to the
closing quote, escapes decoded, raw control characters rejected (as
`JSON.parse` does).  Structural on fuel; `readStrBody` supplies enough. -/
def readStrGo : Nat → List Char → Option (List Char × List Char)
  | 0, _ => none
  | _ + 1, [] => none
  | f + 1, c :: r =>
    if c = '"' then some ([], r)
    else if c = '\\' then
      match r with
      | [] => none
      | 'u' :: h1 :: h2 :: h3 :: h4 :: r2 =>
        if isHexDigit h1 && isHexDigit h2 && isHexDigit h3 && isHexDigit h4 then
          (readStrGo f r2).map fun p =>
            (Char.ofNat (((hexNibble h1 * 16 + hexNibble h2) * 16 + hexNibble h3) * 16
              + hexNibble h4) :: p.1, p.2)
        else none
      | e :: r2 =>
        match unescapeCh e with
        | some d => (readStrGo f r2).map fun p => (d :: p.1, p.2)
        | none => none
    else if c.toNat < 32 then none
    else (readStrGo f r).map fun p => (c :: p.1, p.2)

/-- String body with fuel fixed to the input length (each step consumes at
least one character, so this never runs out). -/
def readStrBody (cs : List Char) : Option (List Char × List Char) :=
  readStrGo (cs.length + 1) cs

/-- True on `'0' :: d :: _` with `d` a digit: the integer parts the JSON
grammar forbids (`JSON.parse("01")` is a syntax error). -/
def badLeadingZero : List Char → Bool
  | c :: d :: _ => c = '0' && isDigitCh d
  | _ => false

/-- Optional sign at the start of an exponent. -/
def expSign : List Char → Int × List Char
  | [] => (1, [])
  | c :: r => if c = '+' then (1, r) else if c = '-' then (-1, r) else (1, c :: r)

/-- Optional exponent after the digits of a JSON number: `e`/`E`, optional
sign, one-or-more digits; absent means exponent 0. -/
def readExp : List Char → Option (Int × List Char)
  | [] => some (0, [])
  | c :: r =>
    if c = 'e' || c = 'E' then
      let es := expSign r
      let ds := grabDigits es.2
      if ds.1 = [] then none else some (es.1 * digitsNat ds.1, ds.2)
    else some (0, c :: r)

/-- Assemble a parsed number from sign, integer digits, fraction digits and
the remaining input: value `±(int ++ frac) * 10 ^ (exp - |frac|)`. -/
def finishNum (neg : Bool) (ip fd : List Char) (cs : List Char) :
    Option (Json × List Char) :=
  match readExp cs with
  | none => none
  | some (e, rest) =>
    let m0 : Int := (digitsNat ip * 10 ^ fd.length + digitsNat fd : Nat)
    some (Json.num (if neg then -m0 else m0) (e - fd.length), rest)

/-- A JSON number: sign, integer part (no leading zero), optional fraction
(at least one digit), optional exponent (at least one digit).  Returns the
exact value as mantissa/scale. -/
def readNum (cs : List Char) : Option (Json × List Char) :=
  let sgn : Bool × List Char := match cs with
    | [] => (false, [])
    | c :: r => if c = '-' then (true, r) else (false, c :: r)
  let ip := grabDigits sgn.2
  if ip.1 = [] then none
  else if badLeadingZero ip.1 then none
  else if ip.2.head? = some '.' then
    let fd := grabDigits ip.2.tail
    if fd.1 = [] then none else finishNum sgn.1 ip.1 fd.1 fd.2
  else finishNum sgn.1 ip.1 [] ip.2

mutual

/-- One JSON value, mirroring `JSON.parse`: leading whitespace, then a
string, object, array, literal, or number.  Structural on fuel. -/
def parseJVal : Nat → List Char → Option (Json × List Char)
  | 0, _ => none
  | f + 1, cs0 =>
    match dropJsonWs cs0 with
    | [] => none
    | c :: r =>
      if c = '"' then (readStrBody r).map fun p => (Json.str (String.mk p.1), p.2)
      else if c = '{' then
        let r2 := dropJsonWs r
        if r2.head? = some '}' then some (Json.obj [], r2.tail)
        else (parseJMembers f r2).map fun p => (Json.obj p.1, p.2)
      else if c = '[' then
        let r2 := dropJsonWs r
        if r2.head? = some ']' then some (Json.arr [], r2.tail)
        else (parseJItems f r2).map fun p => (Json.arr p.1, p.2)
      else if c = 't' then
        match r with
        | 'r' :: 'u' :: 'e' :: r2 => some (Json.bool true, r2)
        | _ => none
      else if c = 'f' then
        match r with
        | 'a' :: 'l' :: 's' :: 'e' :: r2 => some (Json.bool false, r2)
        | _ => none
      else if c = 'n' then
        match r with
        | 'u' :: 'l' :: 'l' :: r2 => some (Json.null, r2)
        | _ => none
      else if c = '-' || isDigitCh c then readNum (c :: r)
      else none

/-- One-or-more comma-separated array items up to `]` (the empty array is
handled in `parseJVal`). -/
def parseJItems : Nat → List Char → Option (List Json × List Char)
  | 0, _ => none
  | f + 1, cs =>
    match parseJVal f cs with
    | none => none
    | some (v, r) =>
      match dropJsonWs r with
      | ',' :: r2 => (parseJItems f r2).map fun p => (v :: p.1, p.2)
      | ']' :: r2 => some ([v], r2)
      | _ => none

/-- One-or-more comma-separated object members up to `}` (the empty object is
handled in `parseJVal`). -/
def parseJMembers : Nat → List Char → Option (List (String × Json) × List Char)
  | 0, _ => none
  | f + 1, cs =>
    match dropJsonWs cs with
    | '"' :: r =>
      match readStrBody r with
      | none => none
      | some (k, r2) =>
        match dropJsonWs r2 with
        | ':' :: r3 =>
          match parseJVal f r3 with
          | none => none
          | some (v, r4) =>
            match dropJsonWs r4 with
            | ',' :: r5 => (parseJMembers f r5).map fun p => ((String.mk k, v) :: p.1, p.2)
            | '}' :: r5 => some ([(String.mk k, v)], r5)
            | _ => none
        | _ => none
    | _ => none

end

/-- `JSON.parse` on a character list: one value, then only trailing
whitespace.  The fuel `2 * length + 2` dominates the recursion depth, which
never exceeds the input length plus one. -/
def jsonRead (cs : List Char) : Option Json :=
  match parseJVal (2 * cs.length + 2) cs with
  | some (v, r) => if dropJsonWs r = [] then some v else none
  | none => none

/-- Modelled from the spec: serializing a Dataset "as a JSON array"
(round-trip property of section 8); the repository itself contains no
Dataset-to-JSON serializer, so this follows `JSON.stringify` conventions:
no whitespace, strings with `"`, `\` and control characters escaped, numbers
in `mantissa e scale` form (exact, any valid JSON spelling is acceptable
since `JSON.parse` is spelling-insensitive). -/
def printNum (m p : Int) : List Char :=
  intChars m ++ (if p = 0 then [] else 'e' :: intChars p)

/-- String escaping for the serializer (see `printNum` above for its role). -/
def escCh (c : Char) : List Char :=
  if c = '"' then ['\\', '"']
  else if c = '\\' then ['\\', '\\']
  else if c.toNat < 32 then
    ['\\', 'u', '0', '0', decCharHex (c.toNat / 16), decCharHex (c.toNat % 16)]
  else [c]

mutual

/-- Serialize one JSON value to characters (see `escCh`). -/
def jserialize : Json → List Char
  | .null => ['n', 'u', 'l', 'l']
  | .bool b => if b then ['t', 'r', 'u', 'e'] else ['f', 'a', 'l', 's', 'e']
  | .num m p => printNum m p
  | .str s => '"' :: (s.data.flatMap escCh ++ ['"'])
  | .arr l => '[' :: (jserItems l ++ [']'])
  | .obj ps => '{' :: (jserMembers ps ++ ['}'])

/-- Serialize array items, comma-separated. -/
def jserItems : List Json → List Char
  | [] => []
  | [x] => jserialize x
  | x :: y :: t => jserialize x ++ ',' :: jserItems (y :: t)

/-- Serialize object members, comma-separated. -/
def jserMembers : List (String × Json) → List Char
  | [] => []
  | [(k, v)] => '"' :: (k.data.flatMap escCh ++ ('"' :: ':' :: jserialize v))
  | (k, v) :: q :: t =>
    ('"' :: (k.data.flatMap escCh ++ ('"' :: ':' :: jserialize v)))
      ++ ',' :: jserMembers (q :: t)

end

/-- A Dataset rendered as a JSON array (see `escCh`). -/
def serializeDataset (ds : List Json) : String := String.mk (jserialize (Json.arr ds))

/-- Does `pat` begin `cs`? -/
def leadsWith : List Char → List Char → Bool
  | [], _ => true
  | _ :: _, [] => false
  | p :: ps, c :: cs => p = c && leadsWith ps cs

/-- Does `pat` occur anywhere in `cs`? -/
def containsSub (pat : List Char) : List Char → Bool
  | [] => leadsWith pat []
  | c :: r => leadsWith pat (c :: r) || containsSub pat r

/-- Split `cs` at the first occurrence of `pat`: `some (pre, post)`
with `cs = pre ++ pat ++ post`. -/
def splitAtSub (pat : List Char) : List Char → Option (List Char × List Char)
  | [] => if leadsWith pat [] then some ([], []) else none
  | c :: r =>
    if leadsWith pat (c :: r) then some ([], (c :: r).drop pat.length)
    else (splitAtSub pat r).map fun p => (c :: p.1, p.2)

/-- The fence-opening literal of the regex at src/vertexAi.js:218. -/
def fenceJson : List Char := ['`', '`', '`', 'j', 's', 'o', 'n']

/-- A bare code fence. -/
def fence : List Char := ['`', '`', '`']

/-- The regex `/```json\s*([\s\S]*?)\s*```/` combined with the JavaScript
truthiness fallback `jsonMatch[1] || jsonMatch[0]` (src/vertexAi.js:218-220):
the leftmost match anchors at the first ` ```json `, the lazy group ends at
the first later ` ``` `, the capture is the enclosed text with `\s`
whitespace trimmed, and an empty capture falls back to the whole match. -/
def fenceCandidate (cs : List Char) : Option (List Char) :=
  match splitAtSub fenceJson cs with
  | none => none
  | some (_, rest) =>
    match splitAtSub fence rest with
    | none => none
    | some (mid, _) =>
      let content := jsTrim mid
      some (if content = [] then fenceJson ++ mid ++ fence else content)

/-- The suffix of `cs` from the first `[` that is followed (after `\s*`) by
`{`, split as (whitespace run, text after the `{`). -/
def arrOpen : List Char → Option (List Char × List Char)
  | [] => none
  | c :: r =>
    if c = '[' then
      match shaveWs r with
      | (w, '{' :: body) => some (w, body)
      | _ => arrOpen r
    else arrOpen r

/-- The prefix of `cs` ending at the `]` of the last `'}' \s* ']'` occurrence
(none if there is no such occurrence).  This is where the greedy `[\s\S]*`
of the array regex stops. -/
def lastCloseIn : List Char → Option (List Char)
  | [] => none
  | c :: r =>
    match lastCloseIn r with
    | some pre => some (c :: pre)
    | none =>
      if c = '}' then
        match shaveWs r with
        | (w, ']' :: _) => some (c :: (w ++ [']']))
        | _ => none
      else none

/-- The regex `/\[\s*\{[\s\S]*\}\s*\]/` (src/vertexAi.js:218): the match runs
from the first `[` followed by optional whitespace and `{`, greedily to the
last later `}` followed by optional whitespace and `]`. -/
def arrCandidate (cs : List Char) : Option (List Char) :=
  match arrOpen cs with
  | none => none
  | some (w, body) =>
    match lastCloseIn body with
    | none => none
    | some pre => some ('[' :: (w ++ '{' :: pre))

/-- The fallback `jsonString.replace(/```json\n?|```/g, '')`
(src/vertexAi.js:223): remove every ` ```json ` (plus one following newline)
and every bare ` ``` `, left to right.  Structural on fuel; `stripFences`
supplies enough. -/
def stripFencesGo : Nat → List Char → List Char
  | 0, cs => cs
  | f + 1, cs =>
    if leadsWith fenceJson cs then
      stripFencesGo f (match cs.drop 7 with
        | '\n' :: r => r
        | r => r)
    else if leadsWith fence cs then stripFencesGo f (cs.drop 3)
    else
      match cs with
      | [] => []
      | c :: r => c :: stripFencesGo f r

/-- Fence removal with fuel fixed to the input length. -/
def stripFences (cs : List Char) : List Char := stripFencesGo cs.length cs

/-- Strategy 1's JSON candidate (src/vertexAi.js:216-224): the fenced-block
capture if the fence regex matches, else the greedy array-regex match, else
the trimmed text with fence markers stripped and trimmed again. -/
def candidate (cs : List Char) : List Char :=
  match fenceCandidate cs with
  | some c => c
  | none =>
    match arrCandidate cs with
    | some c => c
    | none => jsTrim (stripFences (jsTrim cs))

/-- Last-occurrence member lookup, as JavaScript property access behaves on
an object built by `JSON.parse` (later duplicate keys overwrite). -/
def lookupLast : List (String × Json) → String → Option Json
  | [], _ => none
  | (k, v) :: rest, key =>
    match lookupLast rest key with
    | some r => some r
    | none => if k = key then some v else none

/-- The check `parsed.KEY && Array.isArray(parsed.KEY)` (src/vertexAi.js:
229-231): an array-valued member (arrays, even empty, are truthy). -/
def getArrMember (ps : List (String × Json)) (key : String) : Option (List Json) :=
  match lookupLast ps key with
  | some (Json.arr l) => some l
  | _ => none

/-- The prefix of `cs` up to and including its last `}`
(`jsonString.substring(0, lastBrace + 1)`, src/vertexAi.js:237-239). -/
def upToLastBrace : List Char → Option (List Char)
  | [] => none
  | c :: r =>
    match upToLastBrace r with
    | some pre => some (c :: pre)
    | none => if c = '}' then some [c] else none

/-- The truncation repair of src/vertexAi.js:235-242, given the candidate
already known to begin with `[` and not end with `]`: truncate after the
last `}`, append `]`, re-parse.  A successful parse of a text beginning with
`[` is always an array (`jsonRead_bracket_arr` below), so only the `arr`
case is reachable. -/
def repairResult (cand : List Char) : Option (List Json) :=
  match upToLastBrace cand with
  | none => none
  | some pre =>
    match jsonRead (pre ++ [']']) with
    | some (Json.arr l) => some l
    | _ => none

/-- Errors raised by `parseResponse`: the blank-reply guard
(src/vertexAi.js:214) and the final failure carrying
`text.substring(0, 300)` (src/vertexAi.js:286). -/
inductive ParseErr where
  | emptyReply : ParseErr
  | unparsable (snippet : String) : ParseErr

/-- The standard ten-column schema assumed when no header line is detected
(src/vertexAi.js:252-255). -/
def stdHeaders : List String :=
  ["S.No", "Question", "Paper", "Subject", "Month Year",
   "Type", "Section", "University Name", "CBME", "Supplementary"]

/-- JavaScript object assignment `row[k] = v`: overwrite in place if the key
exists, append otherwise. -/
def objSet : List (String × Json) → String → Json → List (String × Json)
  | [], k, v => [(k, v)]
  | (k0, v0) :: rest, k, v =>
    if k0 = k then (k0, v) :: rest else (k0, v0) :: objSet rest k v

/-- The row builder of src/vertexAi.js:273-276: for each header position,
assign the trimmed field at that position, or the empty string when the
split produced no such field (`values[index] || ''`). -/
def mkRow (headers : List String) (vals : List String) : List (String × Json) :=
  headers.enum.foldl (fun acc p => objSet acc p.2 (Json.str (vals.getD p.1 ""))) []

/-- JavaScript `String.prototype.split(sep)` for a one-character separator,
on character lists (keeps empty pieces; `[""]` on empty input). -/
def splitOnCh (sep : Char) : List Char → List (List Char)
  | [] => [[]]
  | c :: r =>
    if c = sep then [] :: splitOnCh sep r
    else
      match splitOnCh sep r with
      | h :: t => (c :: h) :: t
      | [] => [[c]]

/-- One data line (src/vertexAi.js:268-277): skipped when it has no `|`,
otherwise split on `|`, fields trimmed, zipped into a row. -/
def rowOf (headers : List String) (l : List Char) : Option Json :=
  if l.contains '|' then
    some (Json.obj (mkRow headers ((splitOnCh '|' l).map fun v => String.mk (jsTrim v))))
  else none

/-- Lowercasing as `String.prototype.toLowerCase` on the ASCII range. -/
def lowerChars (cs : List Char) : List Char := cs.map Char.toLower

/-- Header detection (src/vertexAi.js:261-262): the lowered first line must
contain `|` and either "question" or "s.no". -/
def headerLine (l : List Char) : Bool :=
  (lowerChars l).contains '|' &&
    (containsSub ['q', 'u', 'e', 's', 't', 'i', 'o', 'n'] (lowerChars l)
      || containsSub ['s', '.', 'n', 'o'] (lowerChars l))

/-- Strategy 3, pipe-separated parsing (src/vertexAi.js:248-280): trimmed
non-blank lines; a detected header line supplies the (trimmed, non-empty)
column names, else the standard schema applies to every line; each remaining
line with a `|` becomes a row; `none` when no rows result (the code then
falls through to the final throw, as it also does when there are no lines). -/
def psvParse (cs : List Char) : Option (List Json) :=
  let lines := (((splitOnCh '\n' (jsTrim cs)).map jsTrim).filter fun l => l ≠ [])
  match lines with
  | [] => none
  | l0 :: rest =>
    let headers := if headerLine l0 then
        (((splitOnCh '|' l0).map fun h => String.mk (jsTrim h)).filter fun h => h ≠ "")
      else stdHeaders
    let dataLines := if headerLine l0 then rest else l0 :: rest
    let rows := dataLines.filterMap (rowOf headers)
    if rows.isEmpty then none else some rows

/-- The fallback chain after JSON parsing failed (or succeeded with `null`,
whose property access throws): repair when the candidate begins with `[` and
does not end with `]` (src/vertexAi.js:235), then pipe-separated parsing,
then the final throw with a 300-character snippet. -/
def fallbackAfterJson (text : List Char) (cand : List Char) : Except ParseErr (List Json) :=
  let repaired : Option (List Json) :=
    if cand.head? = some '[' && !(cand.getLast? = some ']') then repairResult cand
    else none
  match repaired with
  | some l => Except.ok l
  | none =>
    match psvParse text with
    | some rows => Except.ok rows
    | none => Except.error (ParseErr.unparsable (String.mk (text.take 300)))

/-- The Response Normalizer `parseResponse` (src/vertexAi.js:213-287).
JavaScript details mirrored: `if (!text)` rejects exactly the empty string;
a parsed array is returned verbatim; on a parsed object the first
array-valued member among `questions`, `data`, `results` wins, else the
object is wrapped as one row; on parsed `null` the property access throws
into the catch (and the repair guard can never fire, since a candidate
parsing to `null` cannot begin with `[`); any other scalar is wrapped. -/
def parseResponse (text : String) : Except ParseErr (List Json) :=
  if text = "" then Except.error ParseErr.emptyReply
  else
    let cand := candidate text.data
    match jsonRead cand with
    | some (Json.arr l) => Except.ok l
    | some (Json.obj ps) =>
      match getArrMember ps "questions" with
      | some l => Except.ok l
      | none =>
        match getArrMember ps "data" with
        | some l => Except.ok l
        | none =>
          match getArrMember ps "results" with
          | some l => Except.ok l
          | none => Except.ok [Json.obj ps]
    | some Json.null => fallbackAfterJson text.data cand
    | some v => Except.ok [v]
    | none => fallbackAfterJson text.data cand

/-- One conversation turn as received by `chatWithGemini`
(src/vertexAi.js:139). -/
structure ChatMsg where
  role : String
  content : String

/-- One binary attachment. -/
structure Attachment where
  mimeType : String
  base64 : String

/-- One request part: inline binary data or text. -/
inductive ReqPart where
  | inlineData (mimeType data : String) : ReqPart
  | text (s : String) : ReqPart

/-- One entry of the request `contents` array. -/
structure ReqContent where
  role : String
  parts : List ReqPart

/-- The synthetic context turn (src/vertexAi.js:152-155). -/
def ctxTurn (promptContext : String) : ReqContent :=
  ⟨"user", [ReqPart.text ("[System Context - Current Prompt]:\n" ++ promptContext
    ++ "\n\n---\nYou are a helpful AI assistant. Use the above prompt as context to help the user refine it or answer questions about attached files.")]⟩

/-- The synthetic acknowledgment turn (src/vertexAi.js:156-159). -/
def ackTurn : ReqContent :=
  ⟨"model", [ReqPart.text "Understood. I have the prompt context loaded. How can I help you?"]⟩

/-- The history loop of src/vertexAi.js:163-180.  The JavaScript reference
test `msg === messages[messages.length - 1]` holds exactly for the final
iteration, since `messages` comes from `request.json()` and therefore
contains no aliased elements; attachments are prepended to the parts of that
final turn only when its role is `user` and the list is non-empty. -/
def historyContents (attachments : List Attachment) : List ChatMsg → List ReqContent
  | [] => []
  | [m] =>
    [⟨m.role, (if m.role = "user" && !attachments.isEmpty then
        attachments.map fun a => ReqPart.inlineData a.mimeType a.base64
      else []) ++ [ReqPart.text m.content]⟩]
  | m :: m2 :: t => ⟨m.role, [ReqPart.text m.content]⟩ :: historyContents attachments (m2 :: t)

/-- The `contents` array built by `chatWithGemini` (src/vertexAi.js:148-180):
synthetic context and acknowledgment turns when `promptContext` is truthy
(a non-empty string; the route handler always passes a string), then the
conversation history. -/
def chatContents (messages : List ChatMsg) (attachments : List Attachment)
    (promptContext : String) : List ReqContent :=
  (if promptContext ≠ "" then [ctxTurn promptContext, ackTurn] else [])
    ++ historyContents attachments messages

/-- Does a turn carry inline binary data? -/
def hasInline (c : ReqContent) : Bool :=
  c.parts.any fun p => match p with
    | ReqPart.inlineData _ _ => true
    | _ => false

/-- The temperature sent in extraction mode (src/vertexAi.js:87): the caller
value when it is a number (`typeof temperature === 'number' && !isNaN(...)`;
a JSON-derived value is never NaN), otherwise 0.  `none` models an absent
argument. -/
def extractTemperature : Option Json → Json
  | some (Json.num m p) => Json.num m p
  | _ => Json.num 0 0

/-- The max output tokens sent in extraction mode (src/vertexAi.js:88). -/
def extractMaxOutputTokens : Nat := 65535

/-- A remainder that cannot extend a JSON number: empty or headed by a
character that is no digit and none of `.`, `e`, `E`.  All JSON structure
delimiters qualify. -/
def numStop : List Char → Bool
  | [] => true
  | c :: _ => !(isDigitCh c || c = '.' || c = 'e' || c = 'E')

/-- A remainder safe after any serialized value: empty or starting with a
JSON delimiter. -/
def tailOk : List Char → Prop
  | [] => True
  | c :: _ => c = ',' ∨ c = ']' ∨ c = '}'

/-- The key list produced by assignment-folding a header list into an empty
object: first occurrences in order, duplicates collapsed (`mkRow_keys`).
Independent of the assigned values. -/
def keyFold : List String → List String → List String
  | ks, [] => ks
  | ks, h :: t => keyFold (if h ∈ ks then ks else ks ++ [h]) t

theorem decVal_decChar : ∀ d < 10, decVal (decChar d) = d := by decide

theorem decChar_digit (d : Nat) : isDigitCh (decChar d) = true := by
  match d with
  | 0 | 1 | 2 | 3 | 4 | 5 | 6 | 7 | 8 => rfl
  | _ + 9 => rfl

theorem decChar_ne_zero : ∀ d < 10, d ≠ 0 → decChar d ≠ '0' := by decide

theorem digitsNat_nil : digitsNat [] = 0 := rfl

theorem digitsNat_snoc (xs : List Char) (c : Char) :
    digitsNat (xs ++ [c]) = 10 * digitsNat xs + decVal c := by
  simp [digitsNat, List.foldl_append]

theorem digitsNat_one (c : Char) : digitsNat [c] = decVal c := by
  simp [digitsNat]

theorem natRevGo_spec : ∀ n f : Nat, 0 < f → n < 10 ^ f →
    (∀ c ∈ natRevGo f n, isDigitCh c = true) ∧
    digitsNat (natRevGo f n).reverse = n ∧
    ∃ t d, natRevGo f n = t ++ [decChar d] ∧ d < 10 ∧ (n ≠ 0 → d ≠ 0) := by
  intro n
  induction n using Nat.strong_induction_on with
  | _ n ih =>
    intro f hf hlt
    match f, hf with
    | f + 1, _ =>
      by_cases h10 : n < 10
      · refine ⟨?_, ?_, [], n, ?_, h10, fun h => h⟩
        · intro c hc
          simp only [natRevGo, if_pos h10, List.mem_singleton] at hc
          simpa [hc] using decChar_digit n
        · simp [natRevGo, if_pos h10, digitsNat_one, decVal_decChar n h10]
        · simp [natRevGo, if_pos h10]
      · have hdivlt : n / 10 < n := Nat.div_lt_self (by omega) (by norm_num)
        have hdivpow : n / 10 < 10 ^ f := by
          rw [Nat.div_lt_iff_lt_mul (by norm_num)]
          calc n < 10 ^ (f + 1) := hlt
            _ = 10 ^ f * 10 := by ring
        have hfpos : 0 < f := by
          rcases Nat.eq_zero_or_pos f with hf0 | hf0
          · subst hf0; simp at hdivpow; omega
          · exact hf0
        obtain ⟨hdig, hval, t, d, heq, hd10, hdz⟩ := ih (n / 10) hdivlt f hfpos hdivpow
        refine ⟨?_, ?_, decChar (n % 10) :: t, d, ?_, hd10, fun _ => hdz (by omega)⟩
        · intro c hc
          simp only [natRevGo, if_neg h10, List.mem_cons] at hc
          rcases hc with hc | hc
          · simpa [hc] using decChar_digit (n % 10)
          · exact hdig c hc
        · have : (natRevGo (f + 1) n).reverse
              = (natRevGo f (n / 10)).reverse ++ [decChar (n % 10)] := by
            simp [natRevGo, if_neg h10]
          rw [this, digitsNat_snoc, hval, decVal_decChar (n % 10) (Nat.mod_lt _ (by norm_num))]
          omega
        · simp [natRevGo, if_neg h10, heq]

theorem natChars_spec (n : Nat) :
    (∀ c ∈ natChars n, isDigitCh c = true) ∧ digitsNat (natChars n) = n ∧
    ∃ d t, natChars n = decChar d :: t ∧ d < 10 ∧ (n ≠ 0 → d ≠ 0) := by
  have hlt : n < 10 ^ (n + 1) := by
    calc n < 2 ^ n := Nat.lt_two_pow n
      _ ≤ 10 ^ n := Nat.pow_le_pow_left (by norm_num) n
      _ ≤ 10 ^ (n + 1) := Nat.pow_le_pow_right (by norm_num) (by omega)
  obtain ⟨hdig, hval, t, d, heq, hd10, hdz⟩ := natRevGo_spec n (n + 1) (by omega) hlt
  refine ⟨?_, hval, d, t.reverse, ?_, hd10, hdz⟩
  · intro c hc
    exact hdig c (by simpa [natChars, List.mem_reverse] using hc)
  · simp [natChars, heq]

theorem natChars_zero : natChars 0 = ['0'] := rfl

theorem grabDigits_nil : grabDigits [] = ([], []) := rfl

theorem grabDigits_cons_not {c : Char} {t : List Char} (h : isDigitCh c = false) :
    grabDigits (c :: t) = ([], c :: t) := by
  simp [grabDigits, h]

theorem grabDigits_of_numStop {cs : List Char} (h : numStop cs = true) :
    grabDigits cs = ([], cs) := by
  match cs with
  | [] => rfl
  | c :: t =>
    simp only [numStop, Bool.not_eq_true', Bool.or_eq_false_iff,
      decide_eq_false_iff_not] at h
    exact grabDigits_cons_not h.1.1.1

theorem grabDigits_run : ∀ (ds : List Char), (∀ c ∈ ds, isDigitCh c = true) →
    ∀ {rest : List Char}, grabDigits rest = ([], rest) →
    grabDigits (ds ++ rest) = (ds, rest) := by
  intro ds
  induction ds with
  | nil => intro _ rest h; simpa using h
  | cons c t ih =>
    intro hds rest h
    have hc : isDigitCh c = true := hds c (by simp)
    have ht := ih (fun x hx => hds x (by simp [hx])) h
    simp [grabDigits, hc, ht]

theorem numStop_head {c : Char} {t : List Char} (h : numStop (c :: t) = true) :
    isDigitCh c = false ∧ c ≠ '.' ∧ c ≠ 'e' ∧ c ≠ 'E' := by
  simp only [numStop, Bool.not_eq_true', Bool.or_eq_false_iff,
    decide_eq_false_iff_not] at h
  exact ⟨h.1.1.1, h.1.1.2, h.1.2, h.2⟩

theorem readExp_of_numStop {cs : List Char} (h : numStop cs = true) :
    readExp cs = some (0, cs) := by
  match cs with
  | [] => rfl
  | c :: t =>
    obtain ⟨_, _, he, hE⟩ := numStop_head h
    simp [readExp, he, hE]

theorem digit_not_sign {c : Char} (h : isDigitCh c = true) : c ≠ '-' ∧ c ≠ '+' := by
  constructor
  · intro e
    rw [e] at h
    exact absurd h (by decide)
  · intro e
    rw [e] at h
    exact absurd h (by decide)

theorem badLeadingZero_natChars (n : Nat) : badLeadingZero (natChars n) = false := by
  rcases Nat.eq_zero_or_pos n with h0 | h0
  · subst h0; rfl
  · obtain ⟨_, _, d, t, heq, hd10, hdz⟩ := natChars_spec n
    have hne : decChar d ≠ '0' := decChar_ne_zero d hd10 (hdz (by omega))
    rw [heq]
    match t with
    | [] => rfl
    | a :: b => simp [badLeadingZero, hne]

theorem natChars_ne_nil (n : Nat) : natChars n ≠ [] := by
  obtain ⟨_, _, d, t, heq, _, _⟩ := natChars_spec n
  simp [heq]

theorem intChars_nonneg {m : Int} (h : ¬m < 0) : intChars m = natChars m.natAbs := by
  simp [intChars, h]

theorem intChars_neg {m : Int} (h : m < 0) : intChars m = '-' :: natChars m.natAbs := by
  simp [intChars, h]

theorem readExp_print {p : Int} (hp : p ≠ 0) {rest : List Char} (h : numStop rest = true) :
    readExp (('e' :: intChars p) ++ rest) = some (p, rest) := by
  obtain ⟨hdig, hval, d, t, heq, hd10, _⟩ := natChars_spec p.natAbs
  have hgrab : grabDigits (natChars p.natAbs ++ rest) = (natChars p.natAbs, rest) :=
    grabDigits_run _ hdig (grabDigits_of_numStop h)
  have hne : natChars p.natAbs ≠ [] := natChars_ne_nil _
  by_cases hneg : p < 0
  · rw [intChars_neg hneg]
    have hes : expSign ('-' :: (natChars p.natAbs ++ rest)) = (-1, natChars p.natAbs ++ rest) := by
      simp [expSign]
    simp only [readExp, List.cons_append]
    simp [hes, hgrab, hne, hval]
    simp [abs_of_neg hneg]
  · rw [intChars_nonneg hneg]
    have hdigd : isDigitCh (decChar d) = true := decChar_digit d
    obtain ⟨hm, hpl⟩ := digit_not_sign hdigd
    have harg : natChars p.natAbs ++ rest = decChar d :: (t ++ rest) := by simp [heq]
    have hgrab2 : grabDigits (decChar d :: (t ++ rest)) = (decChar d :: t, rest) := by
      rw [← harg, ← heq, hgrab]
    have hval2 : digitsNat (decChar d :: t) = p.natAbs := heq ▸ hval
    simp only [readExp, List.cons_append, harg]
    rw [show expSign (decChar d :: (t ++ rest)) = (1, decChar d :: (t ++ rest)) from by
      simp [expSign, hm, hpl]]
    simp [hgrab2, hval2]
    omega

theorem readNum_print (m p : Int) {rest : List Char} (h : numStop rest = true) :
    readNum (printNum m p ++ rest) = some (Json.num m p, rest) := by
  set T := (if p = 0 then [] else 'e' :: intChars p) ++ rest with hT
  have hTgrab : grabDigits T = ([], T) := by
    by_cases hp : p = 0
    · simpa [hT, hp] using grabDigits_of_numStop h
    · simp only [hT, if_neg hp, List.cons_append]
      exact grabDigits_cons_not (by decide)
  have hTdot : T.head? ≠ some '.' := by
    by_cases hp : p = 0
    · simp only [hT, hp, if_pos, List.nil_append]
      match rest, h with
      | [], _ => simp
      | c :: t, h => simpa using (numStop_head h).2.1
    · simp [hT, if_neg hp]
  have hTexp : readExp T = some (p, rest) := by
    by_cases hp : p = 0
    · subst hp; simpa [hT] using readExp_of_numStop h
    · simpa [hT, if_neg hp] using readExp_print hp h
  have hprint : printNum m p ++ rest = intChars m ++ T := by
    simp [printNum, hT, List.append_assoc]
  obtain ⟨hdig, hval, d, t, heq, hd10, hdz⟩ := natChars_spec m.natAbs
  have hgrab : grabDigits (natChars m.natAbs ++ T) = (natChars m.natAbs, T) :=
    grabDigits_run _ hdig hTgrab
  have hbad : badLeadingZero (natChars m.natAbs) = false := badLeadingZero_natChars _
  have hnn : natChars m.natAbs ≠ [] := natChars_ne_nil _
  rw [hprint]
  by_cases hm : m < 0
  · rw [intChars_neg hm]
    simp only [readNum, List.cons_append]
    simp [hgrab, hnn, hbad, hTdot, finishNum, hTexp, digitsNat_nil, hval]
    simp [abs_of_neg hm]
  · rw [intChars_nonneg hm]
    have hdigd : isDigitCh (decChar d) = true := decChar_digit d
    have hminus : decChar d ≠ '-' := (digit_not_sign hdigd).1
    have harg : natChars m.natAbs ++ T = decChar d :: (t ++ T) := by simp [heq]
    have hgrab2 : grabDigits (decChar d :: (t ++ T)) = (decChar d :: t, T) := by
      rw [← harg, ← heq, hgrab]
    have hbad2 : badLeadingZero (decChar d :: t) = false := heq ▸ hbad
    have hval2 : digitsNat (decChar d :: t) = m.natAbs := heq ▸ hval
    rw [harg]
    simp only [readNum]
    simp [hminus, hgrab2, hbad2, hTdot, finishNum, hTexp, digitsNat_nil, hval2]
    omega

theorem hexNibble_decCharHex : ∀ d < 16, hexNibble (decCharHex d) = d := by decide

theorem isHexDigit_decCharHex : ∀ d < 16, isHexDigit (decCharHex d) = true := by decide

theorem readStrGo_escBody : ∀ (cs rest : List Char) (fuel : Nat),
    (cs.flatMap escCh).length + 1 ≤ fuel →
    readStrGo fuel (cs.flatMap escCh ++ '"' :: rest) = some (cs, rest) := by
  intro cs
  induction cs with
  | nil =>
    intro rest fuel hf
    match fuel, hf with
    | f + 1, _ => simp [readStrGo]
  | cons c cs ih =>
    intro rest fuel hf
    rw [List.flatMap_cons] at hf ⊢
    rw [List.append_assoc]
    by_cases hq : c = '"'
    · subst hq
      match fuel, hf with
      | f + 1, hf =>
        have : readStrGo (f + 1) (escCh '"' ++ (cs.flatMap escCh ++ '"' :: rest))
            = (readStrGo f (cs.flatMap escCh ++ '"' :: rest)).map fun p => ('"' :: p.1, p.2) := by
          simp [escCh, readStrGo, unescapeCh]
        rw [this, ih rest f (by simp [escCh] at hf ⊢; omega)]
        rfl
    · by_cases hb : c = '\\'
      · subst hb
        match fuel, hf with
        | f + 1, hf =>
          have : readStrGo (f + 1) (escCh '\\' ++ (cs.flatMap escCh ++ '"' :: rest))
              = (readStrGo f (cs.flatMap escCh ++ '"' :: rest)).map fun p => ('\\' :: p.1, p.2) := by
            simp [escCh, readStrGo, unescapeCh]
          rw [this, ih rest f (by simp [escCh] at hf ⊢; omega)]
          rfl
      · by_cases hc : c.toNat < 32
        · match fuel, hf with
          | f + 1, hf =>
            have hesc : escCh c
                = ['\\', 'u', '0', '0', decCharHex (c.toNat / 16), decCharHex (c.toNat % 16)] := by
              simp [escCh, hq, hb, hc]
            have hhex3 : isHexDigit (decCharHex (c.toNat / 16)) = true :=
              isHexDigit_decCharHex _ (by omega)
            have hhex4 : isHexDigit (decCharHex (c.toNat % 16)) = true :=
              isHexDigit_decCharHex _ (by omega)
            have hval3 : hexNibble (decCharHex (c.toNat / 16)) = c.toNat / 16 :=
              hexNibble_decCharHex _ (by omega)
            have hval4 : hexNibble (decCharHex (c.toNat % 16)) = c.toNat % 16 :=
              hexNibble_decCharHex _ (by omega)
            have hchar : Char.ofNat (((hexNibble '0' * 16 + hexNibble '0') * 16
                + hexNibble (decCharHex (c.toNat / 16))) * 16
                + hexNibble (decCharHex (c.toNat % 16))) = c := by
              rw [hval3, hval4]
              rw [show ((hexNibble '0' * 16 + hexNibble '0') * 16 + c.toNat / 16) * 16
                  + c.toNat % 16 = c.toNat from by simp [hexNibble]; omega]
              exact Char.ofNat_toNat c
            rw [hesc]
            have : readStrGo (f + 1)
                (['\\', 'u', '0', '0', decCharHex (c.toNat / 16), decCharHex (c.toNat % 16)]
                  ++ (cs.flatMap escCh ++ '"' :: rest))
                = (readStrGo f (cs.flatMap escCh ++ '"' :: rest)).map
                    fun p => (c :: p.1, p.2) := by
              have h0 : isHexDigit '0' = true := rfl
              simp only [List.cons_append, List.nil_append, readStrGo]
              simp [h0, hhex3, hhex4, hchar]
            rw [this, ih rest f (by rw [hesc] at hf; simp at hf ⊢; omega)]
            rfl
        · match fuel, hf with
          | f + 1, hf =>
            have hesc : escCh c = [c] := by simp [escCh, hq, hb, hc]
            rw [hesc]
            have : readStrGo (f + 1) ([c] ++ (cs.flatMap escCh ++ '"' :: rest))
                = (readStrGo f (cs.flatMap escCh ++ '"' :: rest)).map
                    fun p => (c :: p.1, p.2) := by
              simp only [List.cons_append, List.nil_append]
              simp [readStrGo, hq, hb, hc]
            rw [this, ih rest f (by rw [hesc] at hf; simp at hf ⊢; omega)]
            rfl

theorem readStrBody_esc (cs rest : List Char) :
    readStrBody (cs.flatMap escCh ++ '"' :: rest) = some (cs, rest) := by
  apply readStrGo_escBody
  simp

theorem string_mk_data (s : String) : String.mk s.data = s := by
  cases s
  rfl

theorem dropJsonWs_cons {c : Char} (h : isJsonWs c = false) (t : List Char) :
    dropJsonWs (c :: t) = c :: t := by
  simp [dropJsonWs, h]

theorem tailOk_numStop : ∀ {rest : List Char}, tailOk rest → numStop rest = true
  | [], _ => rfl
  | c :: _, h => by
    rcases h with h | h | h <;> subst h <;> rfl

theorem digit_ne {c d : Char} (h : isDigitCh c = true) (hd : isDigitCh d = false) : c ≠ d := by
  intro e
  rw [e, hd] at h
  cases h

theorem digit_not_jsonWs {c : Char} (h : isDigitCh c = true) : isJsonWs c = false := by
  cases hb : isJsonWs c
  · rfl
  · exfalso
    simp only [isJsonWs, Bool.or_eq_true, decide_eq_true_eq] at hb
    rcases hb with ((hb | hb) | hb) | hb <;> subst hb <;> exact absurd h (by decide)

theorem digit_branch {c : Char} (h : isDigitCh c = true) :
    c ≠ '"' ∧ c ≠ '{' ∧ c ≠ '[' ∧ c ≠ 't' ∧ c ≠ 'f' ∧ c ≠ 'n' ∧
    c ≠ ']' ∧ c ≠ '}' ∧ c ≠ ',' ∧ isJsonWs c = false :=
  ⟨digit_ne h rfl, digit_ne h rfl, digit_ne h rfl, digit_ne h rfl, digit_ne h rfl,
   digit_ne h rfl, digit_ne h rfl, digit_ne h rfl, digit_ne h rfl, digit_not_jsonWs h⟩

theorem printNum_head (m p : Int) :
    ∃ c t, printNum m p = c :: t ∧ (c = '-' ∨ isDigitCh c = true) := by
  by_cases hm : m < 0
  · refine ⟨'-', natChars m.natAbs ++ (if p = 0 then [] else 'e' :: intChars p), ?_, Or.inl rfl⟩
    simp [printNum, intChars_neg hm]
  · obtain ⟨_, _, d, t, heq, _, _⟩ := natChars_spec m.natAbs
    refine ⟨decChar d, t ++ (if p = 0 then [] else 'e' :: intChars p), ?_,
      Or.inr (decChar_digit d)⟩
    simp [printNum, intChars_nonneg hm, heq]

theorem parseJVal_num (f : Nat) (m p : Int) {rest : List Char} (hr : numStop rest = true) :
    parseJVal (f + 1) (printNum m p ++ rest) = some (Json.num m p, rest) := by
  obtain ⟨c0, t0, hpn, hc0⟩ := printNum_head m p
  have hfacts : c0 ≠ '"' ∧ c0 ≠ '{' ∧ c0 ≠ '[' ∧ c0 ≠ 't' ∧ c0 ≠ 'f' ∧ c0 ≠ 'n' ∧
      isJsonWs c0 = false ∧ (c0 = '-' || isDigitCh c0) = true := by
    rcases hc0 with h | h
    · subst h
      exact ⟨by decide, by decide, by decide, by decide, by decide, by decide, rfl, rfl⟩
    · obtain ⟨h1, h2, h3, h4, h5, h6, _, _, _, hws⟩ := digit_branch h
      exact ⟨h1, h2, h3, h4, h5, h6, hws, by simp [h]⟩
  have harg : printNum m p ++ rest = c0 :: (t0 ++ rest) := by rw [hpn]; simp
  rw [harg]
  simp only [parseJVal]
  rw [dropJsonWs_cons hfacts.2.2.2.2.2.2.1]
  simp only [hfacts.1, hfacts.2.1, hfacts.2.2.1, hfacts.2.2.2.1, hfacts.2.2.2.2.1,
    hfacts.2.2.2.2.2.1, hfacts.2.2.2.2.2.2.2, if_false, if_true, ite_false, ite_true]
  rw [← harg]
  exact readNum_print m p hr

theorem jser_head (j : Json) :
    ∃ c t, jserialize j = c :: t ∧ isJsonWs c = false ∧ c ≠ ']' ∧ c ≠ '}' := by
  cases j with
  | null => exact ⟨'n', ['u', 'l', 'l'], by simp [jserialize], by decide, by decide, by decide⟩
  | bool b =>
    cases b with
    | false =>
      exact ⟨'f', ['a', 'l', 's', 'e'], by simp [jserialize], by decide, by decide, by decide⟩
    | true => exact ⟨'t', ['r', 'u', 'e'], by simp [jserialize], by decide, by decide, by decide⟩
  | num m p =>
    by_cases hm : m < 0
    · refine ⟨'-', natChars m.natAbs ++ (if p = 0 then [] else 'e' :: intChars p), ?_,
        by decide, by decide, by decide⟩
      simp [jserialize, printNum, intChars_neg hm]
    · obtain ⟨_, _, d, t, heq, _, _⟩ := natChars_spec m.natAbs
      obtain ⟨_, _, _, _, _, _, hbr, hbc, _, hws⟩ := digit_branch (decChar_digit d)
      refine ⟨decChar d, t ++ (if p = 0 then [] else 'e' :: intChars p), ?_, hws, hbr, hbc⟩
      simp [jserialize, printNum, intChars_nonneg hm, heq]
  | str s =>
    exact ⟨'"', s.data.flatMap escCh ++ ['"'], by simp [jserialize], by decide, by decide,
      by decide⟩
  | arr l =>
    exact ⟨'[', jserItems l ++ [']'], by simp [jserialize], by decide, by decide, by decide⟩
  | obj ps =>
    exact ⟨'{', jserMembers ps ++ ['}'], by simp [jserialize], by decide, by decide, by decide⟩

theorem jserItems_cons_ex (x : Json) (xs : List Json) :
    ∃ z, jserItems (x :: xs) = jserialize x ++ z := by
  cases xs with
  | nil => exact ⟨[], by simp [jserItems]⟩
  | cons y t => exact ⟨',' :: jserItems (y :: t), by simp [jserItems]⟩

theorem jserMembers_cons_ex (k : String) (v : Json) (ps : List (String × Json)) :
    ∃ w, jserMembers ((k, v) :: ps) = '"' :: w := by
  cases ps with
  | nil =>
    exact ⟨k.data.flatMap escCh ++ ('"' :: ':' :: jserialize v), by simp [jserMembers]⟩
  | cons q t =>
    exact ⟨(k.data.flatMap escCh ++ ('"' :: ':' :: jserialize v)) ++ ',' :: jserMembers (q :: t),
      by simp [jserMembers]⟩

mutual

theorem rtVal : ∀ (j : Json) (fuel : Nat) (rest : List Char),
    (jserialize j).length < fuel → tailOk rest →
    parseJVal fuel (jserialize j ++ rest) = some (j, rest)
  | .null, fuel, rest, hf, _ => by
    match fuel, hf with
    | f + 1, _ =>
      simp [jserialize, parseJVal, dropJsonWs, isJsonWs]
  | .bool true, fuel, rest, hf, _ => by
    match fuel, hf with
    | f + 1, _ =>
      simp [jserialize, parseJVal, dropJsonWs, isJsonWs]
  | .bool false, fuel, rest, hf, _ => by
    match fuel, hf with
    | f + 1, _ =>
      simp [jserialize, parseJVal, dropJsonWs, isJsonWs]
  | .num m p, fuel, rest, hf, hr => by
    match fuel, hf with
    | f + 1, _ =>
      have : jserialize (Json.num m p) = printNum m p := by simp [jserialize]
      rw [this]
      exact parseJVal_num f m p (tailOk_numStop hr)
  | .str s, fuel, rest, hf, _ => by
    match fuel, hf with
    | f + 1, _ =>
      have harg : jserialize (.str s) ++ rest
          = '"' :: (s.data.flatMap escCh ++ '"' :: rest) := by
        simp [jserialize]
      rw [harg]
      simp only [parseJVal]
      rw [dropJsonWs_cons (by decide)]
      simp [readStrBody_esc, string_mk_data]
  | .arr [], fuel, rest, hf, _ => by
    match fuel, hf with
    | f + 1, _ =>
      have harg : jserialize (.arr []) ++ rest = '[' :: ']' :: rest := by
        simp [jserialize, jserItems]
      rw [harg]
      simp only [parseJVal]
      rw [dropJsonWs_cons (by decide)]
      simp [dropJsonWs_cons (by decide : isJsonWs ']' = false)]
  | .arr (x :: xs), fuel, rest, hf, _ => by
    match fuel, hf with
    | f + 1, hf =>
      have harg : jserialize (.arr (x :: xs)) ++ rest
          = '[' :: (jserItems (x :: xs) ++ ']' :: rest) := by
        simp [jserialize]
      obtain ⟨z, hz⟩ := jserItems_cons_ex x xs
      obtain ⟨c0, t0, hx, hws, hbr, _⟩ := jser_head x
      have hShape : jserItems (x :: xs) ++ ']' :: rest = c0 :: (t0 ++ (z ++ ']' :: rest)) := by
        rw [hz, hx]
        simp [List.append_assoc]
      have hdrop : dropJsonWs (jserItems (x :: xs) ++ ']' :: rest)
          = jserItems (x :: xs) ++ ']' :: rest := by
        rw [hShape]
        exact dropJsonWs_cons hws _
      have hhead : (jserItems (x :: xs) ++ ']' :: rest).head? ≠ some ']' := by
        rw [hShape]
        simp [hbr]
      have hsz : jserialize (Json.arr (x :: xs)) = '[' :: (jserItems (x :: xs) ++ [']']) := by
        simp [jserialize]
      have hkey := rtItems (x :: xs) f rest (by simp) (by
        rw [hsz] at hf
        simp only [List.length_cons, List.length_append] at hf
        omega)
      rw [harg]
      simp only [parseJVal]
      rw [dropJsonWs_cons (by decide)]
      simp only [hdrop, hkey]
      simp [hz, hx, hbr]
  | .obj [], fuel, rest, hf, _ => by
    match fuel, hf with
    | f + 1, _ =>
      have harg : jserialize (.obj []) ++ rest = '{' :: '}' :: rest := by
        simp [jserialize, jserMembers]
      rw [harg]
      simp only [parseJVal]
      rw [dropJsonWs_cons (by decide)]
      simp [dropJsonWs_cons (by decide : isJsonWs '}' = false)]
  | .obj ((k, v) :: ps), fuel, rest, hf, _ => by
    match fuel, hf with
    | f + 1, hf =>
      have harg : jserialize (.obj ((k, v) :: ps)) ++ rest
          = '{' :: (jserMembers ((k, v) :: ps) ++ '}' :: rest) := by
        simp [jserialize]
      obtain ⟨w, hw0⟩ := jserMembers_cons_ex k v ps
      have hdrop : dropJsonWs (jserMembers ((k, v) :: ps) ++ '}' :: rest)
          = jserMembers ((k, v) :: ps) ++ '}' :: rest := by
        rw [hw0, List.cons_append]
        exact dropJsonWs_cons (by decide) _
      have hsz : jserialize (Json.obj ((k, v) :: ps))
          = '{' :: (jserMembers ((k, v) :: ps) ++ ['}']) := by
        simp [jserialize]
      have hkey := rtMembers ((k, v) :: ps) f rest (by simp) (by
        rw [hsz] at hf
        simp only [List.length_cons, List.length_append] at hf
        omega)
      rw [harg]
      simp only [parseJVal]
      rw [dropJsonWs_cons (by decide)]
      simp only [hdrop, hkey]
      simp [hw0]
  termination_by j _ _ _ _ => sizeOf j

theorem rtItems : ∀ (l : List Json) (fuel : Nat) (rest : List Char), l ≠ [] →
    (jserItems l).length + 1 < fuel →
    parseJItems fuel (jserItems l ++ ']' :: rest) = some (l, rest)
  | [], _, _, h, _ => absurd rfl h
  | [x], fuel, rest, _, hf => by
    match fuel, hf with
    | f + 1, hf =>
      have h1 : jserItems [x] = jserialize x := by simp [jserItems]
      have hv := rtVal x f (']' :: rest) (by rw [h1] at hf; omega) (by simp [tailOk])
      rw [h1]
      simp only [parseJItems]
      simp [hv, dropJsonWs_cons (by decide : isJsonWs ']' = false)]
  | x :: y :: t, fuel, rest, _, hf => by
    match fuel, hf with
    | f + 1, hf =>
      have h2 : jserItems (x :: y :: t) = jserialize x ++ ',' :: jserItems (y :: t) := by
        simp [jserItems]
      have hlen : (jserialize x).length < f ∧ (jserItems (y :: t)).length + 1 < f := by
        rw [h2] at hf
        simp only [List.length_append, List.length_cons] at hf
        constructor <;> omega
      have hv := rtVal x f (',' :: (jserItems (y :: t) ++ ']' :: rest)) hlen.1 (by simp [tailOk])
      have hrec := rtItems (y :: t) f rest (by simp) hlen.2
      have harg : jserItems (x :: y :: t) ++ ']' :: rest
          = jserialize x ++ (',' :: (jserItems (y :: t) ++ ']' :: rest)) := by
        rw [h2]
        simp [List.append_assoc]
      rw [harg]
      simp only [parseJItems]
      simp [hv, hrec, dropJsonWs_cons (by decide : isJsonWs ',' = false)]
  termination_by l _ _ _ _ => sizeOf l

theorem rtMembers : ∀ (ps : List (String × Json)) (fuel : Nat) (rest : List Char), ps ≠ [] →
    (jserMembers ps).length + 1 < fuel →
    parseJMembers fuel (jserMembers ps ++ '}' :: rest) = some (ps, rest)
  | [], _, _, h, _ => absurd rfl h
  | [(k, v)], fuel, rest, _, hf => by
    match fuel, hf with
    | f + 1, hf =>
      have h1 : jserMembers [(k, v)]
          = '"' :: (k.data.flatMap escCh ++ ('"' :: ':' :: jserialize v)) := by
        simp [jserMembers]
      have hlen : (jserialize v).length < f := by
        rw [h1] at hf
        simp only [List.length_cons, List.length_append] at hf
        omega
      have hv := rtVal v f ('}' :: rest) hlen (by simp [tailOk])
      have harg : jserMembers [(k, v)] ++ '}' :: rest
          = '"' :: (k.data.flatMap escCh ++ '"' :: (':' :: (jserialize v ++ '}' :: rest))) := by
        rw [h1]
        simp
      have hstr := readStrBody_esc k.data (':' :: (jserialize v ++ '}' :: rest))
      rw [harg]
      simp only [parseJMembers]
      rw [dropJsonWs_cons (by decide)]
      simp [hstr, hv, string_mk_data,
        dropJsonWs_cons (by decide : isJsonWs ':' = false),
        dropJsonWs_cons (by decide : isJsonWs '}' = false)]
  | (k, v) :: q :: t, fuel, rest, _, hf => by
    match fuel, hf with
    | f + 1, hf =>
      have h2 : jserMembers ((k, v) :: q :: t)
          = ('"' :: (k.data.flatMap escCh ++ ('"' :: ':' :: jserialize v)))
            ++ ',' :: jserMembers (q :: t) := by
        simp [jserMembers]
      have hlen : (jserialize v).length < f ∧ (jserMembers (q :: t)).length + 1 < f := by
        rw [h2] at hf
        simp only [List.length_append, List.length_cons] at hf
        constructor <;> omega
      have hv := rtVal v f (',' :: (jserMembers (q :: t) ++ '}' :: rest)) hlen.1
        (by simp [tailOk])
      have hrec := rtMembers (q :: t) f rest (by simp) hlen.2
      have harg : jserMembers ((k, v) :: q :: t) ++ '}' :: rest
          = '"' :: (k.data.flatMap escCh
              ++ '"' :: (':' :: (jserialize v ++ ',' :: (jserMembers (q :: t) ++ '}' :: rest)))) := by
        rw [h2]
        simp [List.append_assoc]
      have hstr := readStrBody_esc k.data
        (':' :: (jserialize v ++ ',' :: (jserMembers (q :: t) ++ '}' :: rest)))
      rw [harg]
      simp only [parseJMembers]
      rw [dropJsonWs_cons (by decide)]
      simp [hstr, hv, hrec, string_mk_data,
        dropJsonWs_cons (by decide : isJsonWs ':' = false),
        dropJsonWs_cons (by decide : isJsonWs ',' = false)]
  termination_by ps _ _ _ _ => sizeOf ps

end

theorem jsonRead_ser (j : Json) : jsonRead (jserialize j) = some j := by
  have h := rtVal j (2 * (jserialize j).length + 2) [] (by omega) trivial
  rw [List.append_nil] at h
  simp [jsonRead, h, dropJsonWs]

theorem leadsWith_append_left {p q cs : List Char} (h : leadsWith (p ++ q) cs = true) :
    leadsWith p cs = true := by
  induction p generalizing cs with
  | nil => rfl
  | cons a p ih =>
    match cs with
    | [] => exact absurd h (by simp [leadsWith])
    | c :: r =>
      simp only [List.cons_append, leadsWith, Bool.and_eq_true] at h ⊢
      exact ⟨h.1, ih h.2⟩

theorem splitAtSub_fenceJson_none {cs : List Char} (h : containsSub fence cs = false) :
    splitAtSub fenceJson cs = none := by
  induction cs with
  | nil => rfl
  | cons c r ih =>
    simp only [containsSub, Bool.or_eq_false_iff] at h
    have hlw : leadsWith fenceJson (c :: r) = false := by
      cases hb : leadsWith fenceJson (c :: r)
      · rfl
      · exact absurd (@leadsWith_append_left
          fence ['j', 's', 'o', 'n'] (c :: r) hb) (by simp [h.1])
    simp [splitAtSub, hlw, ih h.2]

theorem fenceCandidate_none {cs : List Char} (h : containsSub fence cs = false) :
    fenceCandidate cs = none := by
  simp [fenceCandidate, splitAtSub_fenceJson_none h]

theorem lastCloseIn_snoc : ∀ xs : List Char,
    lastCloseIn (xs ++ ['}', ']']) = some (xs ++ ['}', ']']) := by
  intro xs
  induction xs with
  | nil => rfl
  | cons x t ih => simp [lastCloseIn, ih]

/-- A non-empty Dataset whose rows are all objects serializes its items as
`{ … }` with braces at both ends. -/
theorem jserItems_obj_shape : ∀ (ds : List Json), ds ≠ [] →
    (∀ j ∈ ds, ∃ ps, j = Json.obj ps) →
    ∃ mid, jserItems ds = '{' :: (mid ++ ['}']) := by
  intro ds
  induction ds with
  | nil => intro h; exact absurd rfl h
  | cons x t ih =>
    intro _ hobj
    obtain ⟨ps, hx⟩ := hobj x (by simp)
    cases t with
    | nil =>
      refine ⟨jserMembers ps, ?_⟩
      subst hx
      simp [jserItems, jserialize]
    | cons y u =>
      obtain ⟨mid, hmid⟩ := ih (by simp) (fun j hj => hobj j (by simp [hj]))
      refine ⟨jserMembers ps ++ '}' :: ',' :: '{' :: mid, ?_⟩
      subst hx
      rw [show jserItems (Json.obj ps :: y :: u)
          = jserialize (Json.obj ps) ++ ',' :: jserItems (y :: u) from by simp [jserItems]]
      rw [hmid]
      simp [jserialize]

theorem arrOpen_bracket_brace (x : List Char) :
    arrOpen ('[' :: '{' :: x) = some ([], x) := by
  simp [arrOpen, shaveWs, isJsWs]

theorem arrCandidate_serialized {ds : List Json} (hne : ds ≠ [])
    (hobj : ∀ j ∈ ds, ∃ ps, j = Json.obj ps) :
    arrCandidate (jserialize (Json.arr ds)) = some (jserialize (Json.arr ds)) := by
  obtain ⟨mid, hmid⟩ := jserItems_obj_shape ds hne hobj
  have hser : jserialize (Json.arr ds) = '[' :: '{' :: (mid ++ ['}', ']']) := by
    rw [show jserialize (Json.arr ds) = '[' :: (jserItems ds ++ [']']) from by simp [jserialize],
      hmid]
    simp
  rw [hser]
  simp [arrCandidate, arrOpen_bracket_brace, lastCloseIn_snoc]

theorem candidate_serialized {ds : List Json} (hne : ds ≠ [])
    (hobj : ∀ j ∈ ds, ∃ ps, j = Json.obj ps)
    (hf : containsSub fence (jserialize (Json.arr ds)) = false) :
    candidate (jserialize (Json.arr ds)) = jserialize (Json.arr ds) := by
  simp [candidate, fenceCandidate_none hf, arrCandidate_serialized hne hobj]

theorem serializeDataset_data (ds : List Json) :
    (serializeDataset ds).data = jserialize (Json.arr ds) := rfl

theorem serializeDataset_ne_empty (ds : List Json) : serializeDataset ds ≠ "" := by
  intro h
  have : (serializeDataset ds).data = [] := by rw [h]
  rw [serializeDataset_data] at this
  rw [show jserialize (Json.arr ds) = '[' :: (jserItems ds ++ [']']) from by simp [jserialize]]
    at this
  cases this

/-- Re-parsing a serialized Dataset of object rows (no code fence present)
recovers it exactly. -/
theorem parseResponse_serialized (ds : List Json)
    (hobj : ∀ j ∈ ds, ∃ ps, j = Json.obj ps)
    (hf : containsSub fence (serializeDataset ds).data = false) :
    parseResponse (serializeDataset ds) = Except.ok ds := by
  cases hds : ds with
  | nil => rfl
  | cons x t =>
    subst hds
    rw [serializeDataset_data] at hf
    have hcand : candidate (serializeDataset (x :: t)).data = jserialize (Json.arr (x :: t)) := by
      rw [serializeDataset_data]
      exact candidate_serialized (by simp) hobj hf
    rw [parseResponse, if_neg (serializeDataset_ne_empty _)]
    simp only [hcand, jsonRead_ser]

theorem parseJVal_bracket : ∀ (f : Nat) (t r : List Char) (v : Json),
    parseJVal f ('[' :: t) = some (v, r) → ∃ l, v = Json.arr l := by
  intro f t r v h
  match f with
  | 0 => cases h
  | f + 1 =>
    rw [parseJVal, dropJsonWs_cons (by decide)] at h
    simp only [if_neg (by decide : ¬('[' : Char) = '"'),
      if_neg (by decide : ¬('[' : Char) = '{'), if_pos rfl] at h
    by_cases hh : (dropJsonWs t).head? = some ']'
    · rw [if_pos hh] at h
      exact ⟨[], by cases h; rfl⟩
    · rw [if_neg hh] at h
      rcases hi : parseJItems f (dropJsonWs t) with _ | p
      · rw [hi] at h; cases h
      · rw [hi] at h
        exact ⟨p.1, by cases h; rfl⟩

theorem jsonRead_bracket_arr {cs : List Char} {v : Json} (hc : cs.head? = some '[')
    (h : jsonRead cs = some v) : ∃ l, v = Json.arr l := by
  match cs, hc with
  | [], hc => cases hc
  | c :: t, hc =>
    have hceq : c = '[' := by simpa using hc
    subst hceq
    rw [jsonRead] at h
    rcases hp : parseJVal (2 * ('[' :: t).length + 2) ('[' :: t) with _ | q
    · rw [hp] at h; cases h
    · obtain ⟨v0, r0⟩ := q
      rw [hp] at h
      simp only [] at h
      obtain ⟨l, hl⟩ := parseJVal_bracket _ _ _ _ hp
      by_cases hd : dropJsonWs r0 = []
      · rw [if_pos hd] at h
        cases h
        exact ⟨l, hl⟩
      · rw [if_neg hd] at h
        cases h

theorem parseResponse_of_arr {t : String} {l : List Json} (h : t ≠ "")
    (hj : jsonRead (candidate t.data) = some (Json.arr l)) :
    parseResponse t = Except.ok l := by
  rw [parseResponse, if_neg h]
  simp only [hj]

theorem parseResponse_of_none {t : String} (h : t ≠ "")
    (hj : jsonRead (candidate t.data) = none) :
    parseResponse t = fallbackAfterJson t.data (candidate t.data) := by
  rw [parseResponse, if_neg h]
  simp only [hj]

theorem fallback_repair {text cand : List Char} (h1 : cand.head? = some '[')
    (h2 : cand.getLast? ≠ some ']') :
    fallbackAfterJson text cand
      = (match repairResult cand with
         | some l => Except.ok l
         | none =>
           match psvParse text with
           | some rows => Except.ok rows
           | none => Except.error (ParseErr.unparsable (String.mk (text.take 300)))) := by
  rw [fallbackAfterJson]
  simp only [h1, h2]
  simp

theorem fallback_no_repair {text cand : List Char}
    (h : ¬(cand.head? = some '[' ∧ cand.getLast? ≠ some ']')) :
    fallbackAfterJson text cand
      = (match psvParse text with
         | some rows => Except.ok rows
         | none => Except.error (ParseErr.unparsable (String.mk (text.take 300)))) := by
  rw [fallbackAfterJson]
  have hcond : (cand.head? = some '[' && !(cand.getLast? = some ']')) = false := by
    by_cases hA : cand.head? = some '['
    · by_cases hB : cand.getLast? = some ']'
      · simp [hA, hB]
      · exact absurd ⟨hA, hB⟩ h
    · simp [hA]
  simp only [hcond]
  simp

theorem fallback_ne_empty (a b : List Char) :
    fallbackAfterJson a b ≠ Except.error ParseErr.emptyReply := by
  rw [fallbackAfterJson]
  rcases hr : (if b.head? = some '[' && !(b.getLast? = some ']') then repairResult b
      else none) with _ | l
  · rcases hp : psvParse a with _ | rows <;> simp [hr, hp]
  · simp [hr]

theorem guard_nonempty {b rows : List Json}
    (h : (if b.isEmpty then none else some b) = some rows) : rows ≠ [] := by
  by_cases hb : b.isEmpty
  · rw [if_pos hb] at h
    cases h
  · rw [if_neg hb] at h
    cases h
    rw [List.isEmpty_iff] at hb
    exact hb

theorem psvParse_some_ne_nil {cs : List Char} {rows : List Json}
    (h : psvParse cs = some rows) : rows ≠ [] := by
  rw [psvParse] at h
  split at h
  · cases h
  · simp only [] at h
    exact guard_nonempty h

theorem rowOf_no_pipe {headers : List String} {l : List Char} (h : l.contains '|' = false) :
    rowOf headers l = none := by
  rw [rowOf, if_neg (by rw [h]; exact Bool.false_ne_true)]

theorem rowOf_shape {headers : List String} {l : List Char} {r : Json}
    (h : rowOf headers l = some r) : ∃ vals, r = Json.obj (mkRow headers vals) := by
  rw [rowOf] at h
  split at h
  · exact ⟨(splitOnCh '|' l).map fun v => String.mk (jsTrim v), by cases h; rfl⟩
  · cases h

theorem contains_false_of_not_mem {a : Char} {l : List Char} (h : a ∉ l) :
    l.contains a = false := by
  cases hb : l.contains a
  · rfl
  · exact absurd (List.mem_of_elem_eq_true hb) h

theorem shaveWs_snd_mem {x : Char} : ∀ {cs : List Char}, x ∈ (shaveWs cs).2 → x ∈ cs := by
  intro cs
  induction cs with
  | nil => exact fun h => h
  | cons c r ih =>
    intro h
    by_cases hw : isJsWs c
    · simp only [shaveWs, hw, if_pos] at h
      exact List.mem_cons_of_mem c (ih h)
    · simp only [shaveWs, hw, if_neg, Bool.false_eq_true, ite_false] at h
      exact h

theorem jsTrim_mem {x : Char} {cs : List Char} (h : x ∈ jsTrim cs) : x ∈ cs := by
  rw [jsTrim, List.mem_reverse] at h
  have h2 := @shaveWs_snd_mem x ((dropWsL cs).reverse) h
  rw [List.mem_reverse] at h2
  exact shaveWs_snd_mem h2

theorem splitOnCh_mem {sep x : Char} : ∀ {cs piece : List Char},
    piece ∈ splitOnCh sep cs → x ∈ piece → x ∈ cs := by
  intro cs
  induction cs with
  | nil =>
    intro piece hp hx
    simp [splitOnCh] at hp
    subst hp
    cases hx
  | cons c r ih =>
    intro piece hp hx
    by_cases hs : c = sep
    · simp only [splitOnCh, hs, if_pos] at hp
      rcases List.mem_cons.mp hp with hp | hp
      · subst hp; cases hx
      · exact List.mem_cons_of_mem _ (ih hp hx)
    · rw [splitOnCh] at hp
      simp only [if_neg hs] at hp
      rcases hsp : splitOnCh sep r with _ | ⟨hd, tl⟩
      · rw [hsp] at hp
        simp at hp
        subst hp
        rcases List.mem_singleton.mp hx with rfl
        exact List.mem_cons_self _ _
      · rw [hsp] at hp
        rcases List.mem_cons.mp hp with hp | hp
        · subst hp
          rcases List.mem_cons.mp hx with rfl | hx
          · exact List.mem_cons_self _ _
          · have hhd : hd ∈ splitOnCh sep r := by rw [hsp]; exact List.mem_cons_self _ _
            exact List.mem_cons_of_mem _ (ih hhd hx)
        · have hmem : piece ∈ splitOnCh sep r := by
            rw [hsp]; exact List.mem_cons_of_mem _ hp
          exact List.mem_cons_of_mem _ (ih hmem hx)

theorem psvParse_none_of_no_pipe {cs : List Char} (h : '|' ∉ cs) : psvParse cs = none := by
  have hline : ∀ l ∈ ((splitOnCh '\n' (jsTrim cs)).map jsTrim).filter (fun l => l ≠ []),
      l.contains '|' = false := by
    intro l hl
    apply contains_false_of_not_mem
    intro hx
    rw [List.mem_filter] at hl
    obtain ⟨piece, hpiece, hpe⟩ := List.mem_map.mp hl.1
    subst hpe
    exact h (jsTrim_mem (splitOnCh_mem hpiece (jsTrim_mem hx)))
  have hrows : ∀ (headers : List String) (dl : List (List Char)),
      (∀ l ∈ dl, l.contains '|' = false) → dl.filterMap (rowOf headers) = [] := by
    intro headers dl hdl
    rw [List.filterMap_eq_nil]
    intro a ha
    exact rowOf_no_pipe (hdl a ha)
  rw [psvParse]
  rcases hsplit : (((splitOnCh '\n' (jsTrim cs)).map jsTrim).filter fun l => l ≠ [])
      with _ | ⟨l0, rest⟩
  · rw [hsplit]
  · rw [hsplit]
    rw [hsplit] at hline
    have hall : ∀ l ∈ l0 :: rest, l.contains '|' = false := hline
    by_cases hh : headerLine l0
    · simp [hh, hrows _ _ (fun l hl2 => hall l (List.mem_cons_of_mem _ hl2))]
    · simp [hh, hrows _ _ hall]

theorem objSet_keys (acc : List (String × Json)) (k : String) (v : Json) :
    (objSet acc k v).map Prod.fst
      = if k ∈ acc.map Prod.fst then acc.map Prod.fst else acc.map Prod.fst ++ [k] := by
  induction acc with
  | nil => simp [objSet]
  | cons p rest ih =>
    obtain ⟨k0, v0⟩ := p
    by_cases hk : k0 = k
    · subst hk
      simp [objSet]
    · have hk2 : ¬k = k0 := fun e => hk e.symm
      by_cases hm : k ∈ rest.map Prod.fst
      · simp [objSet, hk, ih, hm, hk2]
      · simp [objSet, hk, ih, hm, hk2]

theorem mkRow_keys_aux (vals : List String) :
    ∀ (hs : List (Nat × String)) (acc : List (String × Json)),
    ((hs.foldl (fun acc p => objSet acc p.2 (Json.str (vals.getD p.1 ""))) acc).map Prod.fst)
      = keyFold (acc.map Prod.fst) (hs.map Prod.snd) := by
  intro hs
  induction hs with
  | nil => intro acc; rfl
  | cons p t ih =>
    intro acc
    rw [List.foldl_cons, ih, List.map_cons, keyFold, objSet_keys]

theorem mkRow_keys (headers vals : List String) :
    (mkRow headers vals).map Prod.fst = keyFold [] headers := by
  rw [mkRow, mkRow_keys_aux]
  simp [List.enum_map_snd]

theorem objSet_append {acc : List (String × Json)} {k : String} (v : Json)
    (h : k ∉ acc.map Prod.fst) : objSet acc k v = acc ++ [(k, v)] := by
  induction acc with
  | nil => rfl
  | cons p rest ih =>
    obtain ⟨k0, v0⟩ := p
    simp only [List.map_cons, List.mem_cons] at h
    push_neg at h
    rw [objSet, if_neg (fun e => h.1 e.symm), ih h.2]
    simp

theorem mkRow_enumFrom_aux (vals : List String) :
    ∀ (hs : List String) (i : Nat) (acc : List (String × Json)),
    hs.Nodup → (∀ x ∈ hs, x ∉ acc.map Prod.fst) →
    ((List.enumFrom i hs).foldl (fun acc p => objSet acc p.2 (Json.str (vals.getD p.1 ""))) acc)
      = acc ++ (List.enumFrom i hs).map (fun p => (p.2, Json.str (vals.getD p.1 ""))) := by
  intro hs
  induction hs with
  | nil => intro i acc _ _; simp [List.enumFrom]
  | cons x t ih =>
    intro i acc hnd hdisj
    rw [List.enumFrom, List.foldl_cons]
    have hset : objSet acc x (Json.str (vals.getD i ""))
        = acc ++ [(x, Json.str (vals.getD i ""))] :=
      objSet_append _ (hdisj x (by simp))
    rw [hset]
    rw [ih (i + 1) _ (List.nodup_cons.mp hnd).2 ?_]
    · simp
    · intro y hy hmem
      rw [List.map_append] at hmem
      rcases List.mem_append.mp hmem with hm | hm
      · exact hdisj y (List.mem_cons_of_mem _ hy) hm
      · simp only [List.map_cons, List.map_nil, List.mem_singleton] at hm
        subst hm
        exact (List.nodup_cons.mp hnd).1 hy

theorem mkRow_nodup (headers vals : List String) (h : headers.Nodup) :
    mkRow headers vals = headers.enum.map fun p => (p.2, Json.str (vals.getD p.1 "")) := by
  rw [mkRow, List.enum]
  rw [mkRow_enumFrom_aux vals headers 0 [] h (by simp)]
  simp [List.enum]

theorem historyContents_length (atts : List Attachment) :
    ∀ msgs : List ChatMsg, (historyContents atts msgs).length = msgs.length
  | [] => rfl
  | [_] => by simp [historyContents]
  | _ :: m2 :: t => by
    rw [historyContents]
    simp [historyContents_length atts (m2 :: t)]

theorem historyContents_shape (atts : List Attachment) (m : ChatMsg) (t : List ChatMsg) :
    ∃ h rest, historyContents atts (m :: t) = h :: rest := by
  cases t with
  | nil => exact ⟨_, [], by rw [historyContents]⟩
  | cons m2 u => exact ⟨_, _, by rw [historyContents]⟩

theorem historyContents_inline (atts : List Attachment) :
    ∀ (msgs : List ChatMsg) (i : Nat) (c : ReqContent),
    (historyContents atts msgs)[i]? = some c → hasInline c = true →
    i = msgs.length - 1 ∧ c.role = "user" ∧ atts ≠ []
  | [], i, c, hg, _ => by rw [historyContents] at hg; cases hg
  | [m], i, c, hg, hin => by
    rw [historyContents] at hg
    match i, hg with
    | 0, hg =>
      have hc : c = ⟨m.role, (if m.role = "user" && !atts.isEmpty then
          atts.map fun a => ReqPart.inlineData a.mimeType a.base64 else [])
            ++ [ReqPart.text m.content]⟩ := by
        simpa using hg.symm
      subst hc
      by_cases hcond : (m.role = "user" && !atts.isEmpty) = true
      · rw [Bool.and_eq_true] at hcond
        refine ⟨rfl, by exact of_decide_eq_true hcond.1, ?_⟩
        intro hnil
        subst hnil
        simp at hcond
      · rw [if_neg hcond] at hin
        simp [hasInline] at hin
    | n + 1, hg =>
      rw [List.getElem?_cons_succ] at hg
      simp at hg
  | m :: m2 :: t, i, c, hg, hin => by
    rw [historyContents] at hg
    match i, hg with
    | 0, hg =>
      have hc : c = ⟨m.role, [ReqPart.text m.content]⟩ := by simpa using hg.symm
      subst hc
      simp [hasInline] at hin
    | n + 1, hg =>
      rw [List.getElem?_cons_succ] at hg
      obtain ⟨hn, hrole, hatts⟩ := historyContents_inline atts (m2 :: t) n c hg hin
      refine ⟨?_, hrole, hatts⟩
      simp only [List.length_cons] at hn ⊢
      omega

theorem historyContents_last_inline (atts : List Attachment) :
    ∀ (msgs : List ChatMsg) (m : ChatMsg),
    msgs.getLast? = some m → m.role = "user" → atts ≠ [] →
    ∃ c, (historyContents atts msgs).getLast? = some c ∧ hasInline c = true
      ∧ c.role = "user"
  | [], m, hlast, _, _ => by cases hlast
  | [m0], m, hlast, hrole, hatts => by
    have hm : m = m0 := by simpa using hlast.symm
    subst hm
    obtain ⟨a, arest, hA⟩ : ∃ a arest, atts = a :: arest := by
      rcases atts with _ | ⟨a, arest⟩
      · exact absurd rfl hatts
      · exact ⟨a, arest, rfl⟩
    subst hA
    have hcond : (m.role = "user" && !(a :: arest).isEmpty) = true := by simp [hrole]
    refine ⟨⟨m.role, ((a :: arest).map fun x => ReqPart.inlineData x.mimeType x.base64)
        ++ [ReqPart.text m.content]⟩, ?_, ?_, by simp [hrole]⟩
    · rw [historyContents, if_pos hcond]
      rfl
    · simp [hasInline]
  | m0 :: m1 :: t, m, hlast, hrole, hatts => by
    have hlast2 : (m1 :: t).getLast? = some m := by
      rwa [List.getLast?_cons_cons] at hlast
    obtain ⟨c, hc, hin, hcrole⟩ :=
      historyContents_last_inline atts (m1 :: t) m hlast2 hrole hatts
    obtain ⟨h, rest, hshape⟩ := historyContents_shape atts m1 t
    refine ⟨c, ?_, hin, hcrole⟩
    rw [historyContents, hshape]
    rw [List.getLast?_cons_cons]
    rw [← hshape, hc]

theorem fallback_error {text cand : List Char} (hrep : repairResult cand = none)
    (hpsv : psvParse text = none) :
    fallbackAfterJson text cand
      = Except.error (ParseErr.unparsable (String.mk (text.take 300))) := by
  rw [fallbackAfterJson]
  have hnone : (if cand.head? = some '[' && !(cand.getLast? = some ']') then repairResult cand
      else none) = none := by
    by_cases hc : (cand.head? = some '[' && !(cand.getLast? = some ']')) = true
    · rw [if_pos hc]; exact hrep
    · rw [if_neg hc]
  simp only [hnone, hpsv]

theorem parseResponse_of_obj {t : String} {ps : List (String × Json)} (h : t ≠ "")
    (hj : jsonRead (candidate t.data) = some (Json.obj ps)) :
    parseResponse t
      = (match getArrMember ps "questions" with
         | some l => Except.ok l
         | none =>
           match getArrMember ps "data" with
           | some l => Except.ok l
           | none =>
             match getArrMember ps "results" with
             | some l => Except.ok l
             | none => Except.ok [Json.obj ps]) := by
  rw [parseResponse, if_neg h]
  simp only [hj]

theorem guard_eq {b rows : List Json}
    (h : (if b.isEmpty then none else some b) = some rows) : rows = b := by
  by_cases hb : b.isEmpty
  · rw [if_pos hb] at h
    cases h
  · rw [if_neg hb] at h
    cases h
    rfl

theorem psvParse_shape {cs : List Char} {rows : List Json} (h : psvParse cs = some rows) :
    ∃ (headers : List String) (dl : List (List Char)), rows = dl.filterMap (rowOf headers) := by
  rw [psvParse] at h
  split at h
  · cases h
  · simp only [] at h
    exact ⟨_, _, guard_eq h⟩

theorem filterMap_rowOf_keys (headers : List String) (dl : List (List Char)) :
    ∀ r ∈ dl.filterMap (rowOf headers),
      ∃ fields, r = Json.obj fields ∧ fields.map Prod.fst = keyFold [] headers := by
  intro r hr
  obtain ⟨l, _, hsome⟩ := List.mem_filterMap.mp hr
  obtain ⟨vals, rfl⟩ := rowOf_shape hsome
  exact ⟨mkRow headers vals, rfl, mkRow_keys headers vals⟩

/-- Claim C1, amended.  When the JSON candidate parses as an array, the
Normalizer returns exactly that array, in order.  The round-trip holds for a
Dataset whose rows are objects and whose serialization contains no code-fence
marker; without these provisos it fails (see the counterexample). -/
theorem c1_array_verbatim_roundtrip :
    (∀ (t : String) (l : List Json), t ≠ "" →
      jsonRead (candidate t.data) = some (Json.arr l) → parseResponse t = Except.ok l) ∧
    (∀ ds : List Json, (∀ j ∈ ds, ∃ ps, j = Json.obj ps) →
      containsSub fence (serializeDataset ds).data = false →
      parseResponse (serializeDataset ds) = Except.ok ds) := by
  constructor
  · intro t l h hj
    exact parseResponse_of_arr h hj
  · intro ds hobj hf
    exact parseResponse_serialized ds hobj hf

/-- Claim C1 witness: a concrete array reply is returned verbatim, and a
concrete one-object Dataset round-trips. -/
theorem c1_array_verbatim_roundtrip_witness :
    parseResponse "[\x7b\"a\":\"1\"\x7d]" = Except.ok [Json.obj [("a", Json.str "1")]]
    ∧ parseResponse (serializeDataset [Json.obj [("a", Json.str "1")]])
      = Except.ok [Json.obj [("a", Json.str "1")]] := by
  constructor
  · exact c1_array_verbatim_roundtrip.1 "[\x7b\"a\":\"1\"\x7d]"
      [Json.obj [("a", Json.str "1")]] (by decide) rfl
  · exact c1_array_verbatim_roundtrip.2 [Json.obj [("a", Json.str "1")]]
      (by intro j hj; rw [List.mem_singleton] at hj; exact ⟨[("a", Json.str "1")], hj⟩) rfl

/-- Claim C1 counterexample: the Dataset parsed from a fenced reply whose
string value holds the two characters of a closing brace and bracket does not
round-trip (its serialization is rejected outright), and a Dataset whose row
is a string holding brackets and braces comes back as a different Dataset. -/
theorem c1_roundtrip_counterexample :
    parseResponse "```json\n[\x7b\"a\":\"\x7d]\"\x7d,3]\n```"
      = Except.ok [Json.obj [("a", Json.str "\x7d]")], Json.num 3 0]
    ∧ parseResponse (serializeDataset [Json.obj [("a", Json.str "\x7d]")], Json.num 3 0])
      = Except.error (ParseErr.unparsable "[\x7b\"a\":\"\x7d]\"\x7d,3]")
    ∧ parseResponse (serializeDataset [Json.str "] [\x7b\x7d]"])
      = Except.ok [Json.obj []]
    ∧ ∀ s, Json.obj [] ≠ Json.str s :=
  ⟨rfl, rfl, rfl, fun _ h => Json.noConfusion h⟩

/-- Claim C2, amended.  The pipe-separated strategy never yields an empty
Dataset, and when every strategy fails the Normalizer raises an error rather
than returning a default; but the JSON strategy returns whatever array it
parsed, including the empty one (see the counterexample). -/
theorem c2_no_silent_empty :
    (∀ (cs : List Char) (rows : List Json), psvParse cs = some rows → rows ≠ []) ∧
    (∀ t : String, t ≠ "" → jsonRead (candidate t.data) = none →
      repairResult (candidate t.data) = none → psvParse t.data = none →
      parseResponse t = Except.error (ParseErr.unparsable (String.mk (t.data.take 300)))) := by
  constructor
  · exact fun cs rows h => psvParse_some_ne_nil h
  · intro t h hj hrep hpsv
    rw [parseResponse_of_none h hj, fallback_error hrep hpsv]

/-- Claim C2 witness: a concrete pipe-separated reply yields a non-empty
Dataset, and concrete prose with no strategy succeeding yields the error. -/
theorem c2_no_silent_empty_witness :
    [Json.obj [("S.No", Json.str "1"), ("Question", Json.str "X")]] ≠ ([] : List Json)
    ∧ parseResponse "hello world" = Except.error (ParseErr.unparsable "hello world") := by
  constructor
  · exact c2_no_silent_empty.1 ("S.No | Question\n1 | X".data)
      [Json.obj [("S.No", Json.str "1"), ("Question", Json.str "X")]] rfl
  · exact c2_no_silent_empty.2 "hello world" (by decide) rfl rfl rfl

/-- Claim C2 counterexample: the reply holding an empty JSON array is
returned as an empty Dataset, not an error. -/
theorem c2_empty_array_counterexample :
    parseResponse "[]" = Except.ok ([] : List Json) := rfl

/-- Claim C3: a reply parsing as a JSON object yields the first-present
array-valued property in the order questions, data, results, and is wrapped
as a one-row Dataset when none of the three is an array. -/
theorem c3_object_preference :
    ∀ (t : String) (ps : List (String × Json)), t ≠ "" →
      jsonRead (candidate t.data) = some (Json.obj ps) →
      (∀ l, getArrMember ps "questions" = some l → parseResponse t = Except.ok l) ∧
      (∀ l, getArrMember ps "questions" = none → getArrMember ps "data" = some l →
        parseResponse t = Except.ok l) ∧
      (∀ l, getArrMember ps "questions" = none → getArrMember ps "data" = none →
        getArrMember ps "results" = some l → parseResponse t = Except.ok l) ∧
      (getArrMember ps "questions" = none → getArrMember ps "data" = none →
        getArrMember ps "results" = none → parseResponse t = Except.ok [Json.obj ps]) := by
  intro t ps h hj
  refine ⟨?_, ?_, ?_, ?_⟩
  · intro l h1
    rw [parseResponse_of_obj h hj]
    simp only [h1]
  · intro l h1 h2
    rw [parseResponse_of_obj h hj]
    simp only [h1, h2]
  · intro l h1 h2 h3
    rw [parseResponse_of_obj h hj]
    simp only [h1, h2, h3]
  · intro h1 h2 h3
    rw [parseResponse_of_obj h hj]
    simp only [h1, h2, h3]

/-- Claim C3 witness: with both a data and a questions array present, the
questions array wins. -/
theorem c3_object_preference_witness :
    parseResponse "\x7b\"data\":[\"2\"],\"questions\":[\"1\"]\x7d"
      = Except.ok [Json.str "1"] :=
  (c3_object_preference "\x7b\"data\":[\"2\"],\"questions\":[\"1\"]\x7d"
    [("data", Json.arr [Json.str "2"]), ("questions", Json.arr [Json.str "1"])]
    (by decide) rfl).1 [Json.str "1"] rfl

/-- Claim C4, amended.  Repair is triggered exactly when the candidate begins
with an array-open, does NOT already end with an array-close, and JSON
parsing failed; it truncates after the last closing brace, appends an
array-close and re-parses.  A reply truncated mid-object keeps every
fully-formed preceding element and drops only the tail. -/
theorem c4_repair_guard :
    (∀ t : String, t ≠ "" → jsonRead (candidate t.data) = none →
      (candidate t.data).head? = some '[' → (candidate t.data).getLast? ≠ some ']' →
      parseResponse t
        = (match repairResult (candidate t.data) with
           | some l => Except.ok l
           | none =>
             match psvParse t.data with
             | some rows => Except.ok rows
             | none => Except.error (ParseErr.unparsable (String.mk (t.data.take 300))))) ∧
    (∀ t : String, t ≠ "" → jsonRead (candidate t.data) = none →
      ¬((candidate t.data).head? = some '[' ∧ (candidate t.data).getLast? ≠ some ']') →
      parseResponse t
        = (match psvParse t.data with
           | some rows => Except.ok rows
           | none => Except.error (ParseErr.unparsable (String.mk (t.data.take 300))))) ∧
    parseResponse "[\x7b\"x\":\"1\"\x7d,\x7b\"a\":\"b\""
      = Except.ok [Json.obj [("x", Json.str "1")]] := by
  refine ⟨?_, ?_, rfl⟩
  · intro t h hj h1 h2
    rw [parseResponse_of_none h hj, fallback_repair h1 h2]
  · intro t h hj hng
    rw [parseResponse_of_none h hj, fallback_no_repair hng]

/-- Claim C4 witness: a concrete truncated array reply is repaired to its
complete elements. -/
theorem c4_repair_guard_witness :
    parseResponse "[\x7b\"q\":\"1\"\x7d, \x7b\"r\":"
      = Except.ok [Json.obj [("q", Json.str "1")]] :=
  (c4_repair_guard.1 "[\x7b\"q\":\"1\"\x7d, \x7b\"r\":" (by decide) rfl rfl (by decide)).trans
    rfl

/-- Claim C4 counterexample: a candidate that begins with an array-open and
fails to parse (a trailing comma) but happens to end with an array-close is
NOT repaired, although the repair procedure would have recovered its row; the
trigger condition has a third conjunct the spec omits. -/
theorem c4_trigger_counterexample :
    (candidate ("[\x7b\"a\":\"1\"\x7d,]".data)).head? = some '['
    ∧ jsonRead (candidate ("[\x7b\"a\":\"1\"\x7d,]".data)) = none
    ∧ repairResult (candidate ("[\x7b\"a\":\"1\"\x7d,]".data))
        = some [Json.obj [("a", Json.str "1")]]
    ∧ parseResponse "[\x7b\"a\":\"1\"\x7d,]"
        = Except.error (ParseErr.unparsable "[\x7b\"a\":\"1\"\x7d,]") :=
  ⟨rfl, rfl, rfl, rfl⟩

/-- Claim C5: pipe-separated parsing.  The spec's header example and
no-header example compute as stated; zipping against the schema is by
position with missing fields becoming the empty string and extra fields
ignored (the closed form of the row builder for duplicate-free headers); a
line without the delimiter is skipped. -/
theorem c5_pipe_table :
    parseResponse "S.No | Question\n1 | What is X?"
      = Except.ok [Json.obj [("S.No", Json.str "1"), ("Question", Json.str "What is X?")]]
    ∧ parseResponse "1 | What is X?"
      = Except.ok [Json.obj [("S.No", Json.str "1"), ("Question", Json.str "What is X?"),
          ("Paper", Json.str ""), ("Subject", Json.str ""), ("Month Year", Json.str ""),
          ("Type", Json.str ""), ("Section", Json.str ""),
          ("University Name", Json.str ""), ("CBME", Json.str ""),
          ("Supplementary", Json.str "")]]
    ∧ (∀ headers vals, headers.Nodup →
        mkRow headers vals = headers.enum.map fun p => (p.2, Json.str (vals.getD p.1 "")))
    ∧ (∀ (headers : List String) (l : List Char), l.contains '|' = false →
        rowOf headers l = none) := by
  refine ⟨rfl, rfl, ?_, ?_⟩
  · exact fun headers vals h => mkRow_nodup headers vals h
  · exact fun headers l h => rowOf_no_pipe h

/-- Claim C5 witness: the row builder at a concrete short value list pads
with empty strings, and a concrete line without a delimiter is skipped. -/
theorem c5_pipe_table_witness :
    mkRow ["A", "B"] ["x"] = [("A", Json.str "x"), ("B", Json.str "")]
    ∧ rowOf stdHeaders ("no delimiter here".data) = none := by
  constructor
  · exact (c5_pipe_table.2.2.1 ["A", "B"] ["x"] (by decide)).trans rfl
  · exact c5_pipe_table.2.2.2 stdHeaders ("no delimiter here".data) rfl

/-- Claim C6: the Normalizer reports an empty reply exactly on the empty
string, and prose with no parseable JSON and no pipe character is reported
unparsable, carrying only the first 300 characters of the text. -/
theorem c6_error_taxonomy :
    (∀ t : String, parseResponse t = Except.error ParseErr.emptyReply ↔ t = "") ∧
    (∀ t : String, t ≠ "" → jsonRead (candidate t.data) = none →
      repairResult (candidate t.data) = none → '|' ∉ t.data →
      parseResponse t = Except.error (ParseErr.unparsable (String.mk (t.data.take 300)))) := by
  constructor
  · intro t
    constructor
    · intro hres
      by_contra hne
      rw [parseResponse, if_neg hne] at hres
      rcases hj : jsonRead (candidate t.data) with _ | v
      · simp only [hj] at hres
        exact fallback_ne_empty _ _ hres
      · cases v with
        | null =>
          simp only [hj] at hres
          exact fallback_ne_empty _ _ hres
        | bool b => simp only [hj] at hres; cases hres
        | num m p => simp only [hj] at hres; cases hres
        | str s => simp only [hj] at hres; cases hres
        | arr l => simp only [hj] at hres; cases hres
        | obj ps =>
          simp only [hj] at hres
          rcases h1 : getArrMember ps "questions" with _ | l1
          · simp only [h1] at hres
            rcases h2 : getArrMember ps "data" with _ | l2
            · simp only [h2] at hres
              rcases h3 : getArrMember ps "results" with _ | l3
              · simp only [h3] at hres; cases hres
              · simp only [h3] at hres; cases hres
            · simp only [h2] at hres; cases hres
          · simp only [h1] at hres; cases hres
    · intro h
      subst h
      rfl
  · intro t h hj hrep hpipe
    rw [parseResponse_of_none h hj,
      fallback_error hrep (psvParse_none_of_no_pipe hpipe)]

/-- Claim C6 witness: the empty reply and a concrete prose reply produce the
two errors. -/
theorem c6_error_taxonomy_witness :
    parseResponse "" = Except.error ParseErr.emptyReply
    ∧ parseResponse "no structured content at all"
      = Except.error (ParseErr.unparsable "no structured content at all") := by
  constructor
  · exact (c6_error_taxonomy.1 "").mpr rfl
  · exact c6_error_taxonomy.2 "no structured content at all" (by decide) rfl rfl (by decide)

/-- Claim C7, amended.  The candidate is the fenced capture when the fence
regex matches, else the match of the greedy array regex, else the trimmed
text with fence markers stripped; the greedy match spans from the first
array-open-then-brace to the last brace-then-array-close, which is not the
first array literal of the text (see the counterexample). -/
theorem c7_candidate_choice :
    (∀ (cs c : List Char), fenceCandidate cs = some c → candidate cs = c) ∧
    (∀ (cs c : List Char), fenceCandidate cs = none → arrCandidate cs = some c →
      candidate cs = c) ∧
    (∀ cs : List Char, fenceCandidate cs = none → arrCandidate cs = none →
      candidate cs = jsTrim (stripFences (jsTrim cs))) := by
  refine ⟨?_, ?_, ?_⟩
  · intro cs c hf
    unfold candidate
    simp only [hf]
  · intro cs c hf ha
    unfold candidate
    simp only [hf, ha]
  · intro cs hf ha
    unfold candidate
    simp only [hf, ha]

/-- Claim C7 witness: the three selection tiers on concrete texts. -/
theorem c7_candidate_choice_witness :
    candidate ("```json\n[1]\n```".data) = "[1]".data
    ∧ candidate ("pre [ \x7b\"k\":\"v\"\x7d ] post".data) = "[ \x7b\"k\":\"v\"\x7d ]".data
    ∧ candidate ("plain prose".data) = jsTrim (stripFences (jsTrim ("plain prose".data))) := by
  refine ⟨?_, ?_, ?_⟩
  · exact c7_candidate_choice.1 ("```json\n[1]\n```".data) ("[1]".data) rfl
  · exact c7_candidate_choice.2.1 ("pre [ \x7b\"k\":\"v\"\x7d ] post".data)
      ("[ \x7b\"k\":\"v\"\x7d ]".data) rfl rfl
  · exact c7_candidate_choice.2.2 ("plain prose".data) rfl rfl

/-- Claim C7 counterexample: with two array literals in the text the greedy
regex spans both; the candidate is not the first array literal (which parses
on its own), and the whole reply is rejected. -/
theorem c7_greedy_counterexample :
    candidate ("x [\x7b\"a\":\"1\"\x7d] y [\x7b\"b\":\"2\"\x7d] z".data)
      = "[\x7b\"a\":\"1\"\x7d] y [\x7b\"b\":\"2\"\x7d]".data
    ∧ jsonRead ("[\x7b\"a\":\"1\"\x7d]".data)
      = some (Json.arr [Json.obj [("a", Json.str "1")]])
    ∧ parseResponse "x [\x7b\"a\":\"1\"\x7d] y [\x7b\"b\":\"2\"\x7d] z"
      = Except.error (ParseErr.unparsable "x [\x7b\"a\":\"1\"\x7d] y [\x7b\"b\":\"2\"\x7d] z") :=
  ⟨rfl, rfl, rfl⟩

/-- Claim C8, amended.  A Dataset produced by the pipe-separated strategy has
one column set shared by all its rows; a Dataset produced by the JSON
strategies is the parsed array verbatim, whose rows need not share a column
set (see the counterexample). -/
theorem c8_consistent_columns :
    ∀ (cs : List Char) (rows : List Json), psvParse cs = some rows →
      ∃ ks : List String, ∀ r ∈ rows, ∃ fields, r = Json.obj fields
        ∧ fields.map Prod.fst = ks := by
  intro cs rows h
  obtain ⟨headers, dl, hr⟩ := psvParse_shape h
  refine ⟨keyFold [] headers, ?_⟩
  rw [hr]
  exact filterMap_rowOf_keys headers dl

/-- Claim C8 witness: both rows of a concrete two-line table share their
column set. -/
theorem c8_consistent_columns_witness :
    ∃ ks : List String,
      ∀ r ∈ [Json.obj [("S.No", Json.str "1"), ("Question", Json.str "X")],
          Json.obj [("S.No", Json.str "2"), ("Question", Json.str "Y")]],
        ∃ fields, r = Json.obj fields ∧ fields.map Prod.fst = ks :=
  c8_consistent_columns ("S.No | Question\n1 | X\n2 | Y".data)
    [Json.obj [("S.No", Json.str "1"), ("Question", Json.str "X")],
     Json.obj [("S.No", Json.str "2"), ("Question", Json.str "Y")]] rfl

/-- Claim C8 counterexample: a JSON array whose two rows have different
column names is returned as-is. -/
theorem c8_varying_columns_counterexample :
    parseResponse "[\x7b\"a\":\"1\"\x7d,\x7b\"b\":\"2\"\x7d]"
      = Except.ok [Json.obj [("a", Json.str "1")], Json.obj [("b", Json.str "2")]]
    ∧ [("a", Json.str "1")].map Prod.fst ≠ [("b", Json.str "2")].map Prod.fst :=
  ⟨rfl, by decide⟩

/-- Claim C9, amended.  The temperature defaults to 0 whenever the caller
supplies no numeric value, and any caller-supplied number is forwarded
unchanged; the unit-interval restriction the spec describes is not checked
(see the counterexample).  Max output tokens is the fixed 65535. -/
theorem c9_generation_params :
    (∀ v : Option Json, (∀ m p : Int, v ≠ some (Json.num m p)) →
      extractTemperature v = Json.num 0 0) ∧
    (∀ m p : Int, extractTemperature (some (Json.num m p)) = Json.num m p) ∧
    extractMaxOutputTokens = 65535 := by
  refine ⟨?_, fun m p => rfl, rfl⟩
  intro v hv
  match v with
  | none => rfl
  | some Json.null => rfl
  | some (Json.bool b) => rfl
  | some (Json.num m p) => exact absurd rfl (hv m p)
  | some (Json.str s) => rfl
  | some (Json.arr l) => rfl
  | some (Json.obj ps) => rfl

/-- Claim C9 witness: a non-numeric value falls back to 0 and a numeric one
is forwarded. -/
theorem c9_generation_params_witness :
    extractTemperature (some (Json.str "hot")) = Json.num 0 0
    ∧ extractTemperature (some (Json.num 7 (-1))) = Json.num 7 (-1) := by
  constructor
  · exact c9_generation_params.1 (some (Json.str "hot"))
      (by intro m p hcontra; cases hcontra)
  · exact c9_generation_params.2.1 7 (-1)

/-- Claim C9 counterexample: the value 2 lies outside the unit interval yet
overrides the default 0; no range check is performed. -/
theorem c9_range_counterexample :
    extractTemperature (some (Json.num 2 0)) = Json.num 2 0
    ∧ ¬(numValue 2 0 ≤ 1)
    ∧ extractTemperature (some (Json.num 2 0)) ≠ Json.num 0 0 := by
  refine ⟨rfl, ?_, ?_⟩
  · norm_num [numValue]
  · intro hcontra
    injection hcontra with h1 h2
    exact absurd h1 (by decide)

theorem chatContents_context {ctx : String} (m : List ChatMsg) (a : List Attachment)
    (h : ctx ≠ "") :
    chatContents m a ctx = ctxTurn ctx :: ackTurn :: historyContents a m := by
  rw [chatContents, if_pos h]
  rfl

theorem chatContents_inline (m : List ChatMsg) (a : List Attachment) (ctx : String)
    (i : Nat) (c : ReqContent) (hg : (chatContents m a ctx)[i]? = some c)
    (hin : hasInline c = true) :
    i = (chatContents m a ctx).length - 1 ∧ c.role = "user" ∧ a ≠ [] := by
  by_cases hc : ctx ≠ ""
  · rw [chatContents_context m a hc] at hg ⊢
    cases i with
    | zero =>
      rw [List.getElem?_cons_zero] at hg
      cases hg
      exact Bool.noConfusion hin
    | succ i =>
      rw [List.getElem?_cons_succ] at hg
      cases i with
      | zero =>
        rw [List.getElem?_cons_zero] at hg
        cases hg
        exact Bool.noConfusion hin
      | succ i =>
        rw [List.getElem?_cons_succ] at hg
        obtain ⟨hi, hrole, hatts⟩ := historyContents_inline a m i c hg hin
        refine ⟨?_, hrole, hatts⟩
        have hmne : m ≠ [] := by
          intro hm
          subst hm
          rw [historyContents] at hg
          rw [List.getElem?_nil] at hg
          cases hg
        have hpos : 0 < m.length := List.length_pos.mpr hmne
        simp only [List.length_cons, historyContents_length a m]
        omega
  · rw [not_not] at hc
    subst hc
    rw [chatContents, if_neg (by simp), List.nil_append] at hg ⊢
    obtain ⟨hi, hrole, hatts⟩ := historyContents_inline a m i c hg hin
    refine ⟨?_, hrole, hatts⟩
    rw [historyContents_length a m]
    exact hi

theorem chatContents_last (m : List ChatMsg) (a : List Attachment) (ctx : String)
    (last : ChatMsg) (hlast : m.getLast? = some last) (hrole : last.role = "user")
    (hatts : a ≠ []) :
    ∃ c, (chatContents m a ctx).getLast? = some c ∧ hasInline c = true
      ∧ c.role = "user" := by
  obtain ⟨c, hcl, hin, hcr⟩ := historyContents_last_inline a m last hlast hrole hatts
  by_cases hcx : ctx ≠ ""
  · refine ⟨c, ?_, hin, hcr⟩
    rw [chatContents_context m a hcx]
    have hne : historyContents a m ≠ [] := by
      intro he
      rw [he] at hcl
      cases hcl
    obtain ⟨h0, rest, hsh⟩ := List.exists_cons_of_ne_nil hne
    rw [hsh, List.getLast?_cons_cons, List.getLast?_cons_cons, ← hsh]
    exact hcl
  · rw [not_not] at hcx
    subst hcx
    refine ⟨c, ?_, hin, hcr⟩
    rw [chatContents, if_neg (by simp), List.nil_append]
    exact hcl

/-- Claim C10: with a non-empty context string the content sequence starts
with the synthetic context turn then the acknowledgment turn, followed by
the history in order; a turn carrying inline attachment data can only be the
final element of the sequence, has role user and requires non-empty
attachments; and a history ending in a user turn with attachments present
does put inline data on that final turn. -/
theorem c10_chat_contents :
    (∀ (m : List ChatMsg) (a : List Attachment) (ctx : String), ctx ≠ "" →
      chatContents m a ctx = ctxTurn ctx :: ackTurn :: historyContents a m) ∧
    (∀ (m : List ChatMsg) (a : List Attachment) (ctx : String) (i : Nat) (c : ReqContent),
      (chatContents m a ctx)[i]? = some c → hasInline c = true →
      i = (chatContents m a ctx).length - 1 ∧ c.role = "user" ∧ a ≠ []) ∧
    (∀ (m : List ChatMsg) (a : List Attachment) (ctx : String) (last : ChatMsg),
      m.getLast? = some last → last.role = "user" → a ≠ [] →
      ∃ c, (chatContents m a ctx).getLast? = some c ∧ hasInline c = true
        ∧ c.role = "user") := by
  refine ⟨?_, ?_, ?_⟩
  · exact fun m a ctx h => chatContents_context m a h
  · exact fun m a ctx i c hg hin => chatContents_inline m a ctx i c hg hin
  · exact fun m a ctx last hlast hrole hatts =>
      chatContents_last m a ctx last hlast hrole hatts

/-- Claim C10 witness: a one-turn user history with one attachment and a
context string. -/
theorem c10_chat_contents_witness :
    chatContents [⟨"user", "hi"⟩] [⟨"application/pdf", "QUJD"⟩] "ctx"
      = ctxTurn "ctx" :: ackTurn
          :: historyContents [⟨"application/pdf", "QUJD"⟩] [⟨"user", "hi"⟩]
    ∧ ∃ c, (chatContents [⟨"user", "hi"⟩] [⟨"application/pdf", "QUJD"⟩] "ctx").getLast?
        = some c ∧ hasInline c = true ∧ c.role = "user" := by
  constructor
  · exact c10_chat_contents.1 [⟨"user", "hi"⟩] [⟨"application/pdf", "QUJD"⟩] "ctx"
      (by decide)
  · exact c10_chat_contents.2.2 [⟨"user", "hi"⟩] [⟨"application/pdf", "QUJD"⟩] "ctx"
      ⟨"user", "hi"⟩ rfl rfl (by intro hcontra; cases hcontra)

end PdfExtractor
